import Mathlib

/-!
# Verification of the xtb input generator (`ccinput/packages/xtb.py`)

Shallow embedding of the class `XtbCalculation`: the specification
mini-language parser (`handle_specifications`), the constraint encoders
(`handle_constraints_scan`, `handle_constraints_crest`), the atom-index
range compressor (`compress_indices`), the command selector
(`handle_command`) and the parameter/command assembler
(`handle_parameters`, `create_command`).

Modelling conventions:
* Python strings are embedded as `List Char` (named `Str` below); all of the
  source's string operations (`split`, `strip`, `replace`, `lower`, `join`,
  f-strings) are embedded as executable functions on `List Char`.
* Python floats are embedded exactly as signed decimals
  `(neg, mant, exp) ↦ ±mant·10^exp`; every float literal appearing in the
  source or producible by its inputs is an exact decimal, so parsing and
  2-decimal formatting are modelled without rounding error.  (The special
  literals `inf`/`nan` and binary-rounding corner cases of `repr`/`:.2f`
  are outside the model; no claim depends on them.)
* Python exceptions are the explicit error type `PyError`: the library's
  `InvalidParameter` and the interpreter's built-in `ValueError` (raised by
  a bare `float(...)` conversion).  `get_solvent` is an external
  collaborator and is passed in as a lookup function; its `KeyError` is
  modelled by an `Option` result.
-/

abbrev Str := List Char

/-- Single-quote character, used by the embedded Python `repr` of strings. -/
def quoteChar : Char := Char.ofNat 39

/-- Decimal digits of a natural number, as characters. -/
def natStr (n : ℕ) : Str := (Nat.repr n).data

/-- Python `str(i)` for an integer. -/
def intStr (i : ℤ) : Str := (toString i).data

/-- Python whitespace set for `str.strip`/`str.split()`. -/
def isPySpace (c : Char) : Bool :=
  c == ' ' || c == '\t' || c == '\n' || c == '\r' || c == (Char.ofNat 11) || c == (Char.ofNat 12)

/-- `startsWith l p` : does `l` start with `p`? (helper for `pyReplace`). -/
def startsWith : Str → Str → Bool
  | _, [] => true
  | [], _ :: _ => false
  | c :: t, p :: ps => c == p && startsWith t ps

/-- Worker for `pyReplace`, structurally recursive on a fuel argument so that
the kernel can evaluate it (the fuel is always at least the string length). -/
def pyReplaceAux (pat rep : Str) : ℕ → Str → Str
  | _, [] => []
  | 0, c :: t => c :: t
  | fuel + 1, c :: t =>
    if startsWith (c :: t) pat ∧ pat ≠ [] then
      rep ++ pyReplaceAux pat rep fuel (t.drop (pat.length - 1))
    else
      c :: pyReplaceAux pat rep fuel t

/-- Python `s.replace(pat, rep)` for nonempty `pat`: leftmost, non-overlapping
occurrences are replaced; the replacement text is not rescanned. -/
def pyReplace (pat rep l : Str) : Str := pyReplaceAux pat rep l.length l

/-- The allow-list of characters from `handle_specifications`
(`ALLOWED = "qwertyuiopasdfghjklzxcvbnm-1234567890./= "`). -/
def allowedChars : Str := "qwertyuiopasdfghjklzxcvbnm-1234567890./= ".data

/-- The list comprehension dropping every character not in `ALLOWED`. -/
def sanitize (l : Str) : Str := l.filter (fun i => allowedChars.contains i)

/-- Python `str.lower()`.  (`Char.toLower` lowercases ASCII letters; the
source's allow-list is ASCII, and no claim distinguishes non-ASCII case
mappings.) -/
def pyLower (l : Str) : Str := l.map Char.toLower

/-- Trailing-whitespace strip (right half of Python `str.strip()`). -/
def trimRight (l : Str) : Str := (l.reverse.dropWhile isPySpace).reverse

/-- Python `str.strip()`. -/
def pyStrip (l : Str) : Str := (trimRight l).dropWhile isPySpace

/-- Python `s.split("--")`: split on leftmost non-overlapping occurrences of
the two-character delimiter; keeps empty pieces. -/
def splitOnDD : Str → List Str
  | [] => [[]]
  | [c] => [[c]]
  | c :: d :: rest =>
    if c = '-' ∧ d = '-' then [] :: splitOnDD rest
    else
      match splitOnDD (d :: rest) with
      | [] => [[c]]
      | t :: ts => (c :: t) :: ts

/-- Python `s.split()` (no argument): split on whitespace runs, dropping
empty pieces. -/
def splitWs : Str → List Str
  | [] => []
  | c :: r =>
    if isPySpace c then splitWs r
    else
      match r with
      | [] => [[c]]
      | d :: _ =>
        if isPySpace d then [c] :: splitWs r
        else
          match splitWs r with
          | [] => [[c]]
          | w :: ws => (c :: w) :: ws

/-- Python `s.split("\n")` (used for the geometry line count). -/
def splitNl : Str → List Str
  | [] => [[]]
  | c :: r =>
    if c = '\n' then [] :: splitNl r
    else
      match splitNl r with
      | [] => [[c]]
      | t :: ts => (c :: t) :: ts

/-- Python `s.split("/")` (used for `os.path.basename` on POSIX paths). -/
def splitSlash : Str → List Str
  | [] => [[]]
  | c :: r =>
    if c = '/' then [] :: splitSlash r
    else
      match splitSlash r with
      | [] => [[c]]
      | t :: ts => (c :: t) :: ts

/-- `os.path.basename`: the part of the path after the last `/`. -/
def basename (f : Str) : Str := (splitSlash f).getLastD []

/-- Python `repr` of a list of strings, as interpolated by
`f"Invalid specification: {ss}"` (all inputs reaching it are sanitized and
quote-free, so every element is rendered with plain single quotes). -/
def pyListRepr (ss : List Str) : Str :=
  ['['] ++ List.intercalate ", ".data (ss.map (fun s => [quoteChar] ++ s ++ [quoteChar])) ++ [']']

/-- Numeric value of a string of decimal digits. -/
def digitsVal (l : Str) : ℕ := l.foldl (fun n c => 10 * n + (c.toNat - '0'.toNat)) 0

/-- Split at the first occurrence of a character, if any. -/
def splitOnceAt (sep : Char) : Str → Option (Str × Str)
  | [] => none
  | c :: r =>
    if c = sep then some ([], r)
    else (splitOnceAt sep r).map (fun p => (c :: p.1, p.2))

/-- A Python float that is an exact signed decimal: value `±mant·10^exp`.
Every float the source produces from its inputs (decimal literals, the
constants `-1`, `1.0`, `0.6`) is of this form. -/
structure PyFloat where
  neg : Bool
  mant : ℕ
  exp : ℤ
deriving DecidableEq

/-- Numeric comparison of a `PyFloat` with an integer (Python `==` between a
float and an int is exact value comparison). -/
def PyFloat.eqInt (f : PyFloat) (z : ℤ) : Bool :=
  if f.exp ≥ 0 then
    (if f.neg then -((f.mant * 10 ^ f.exp.toNat : ℕ) : ℤ) else ((f.mant * 10 ^ f.exp.toNat : ℕ) : ℤ)) = z
  else
    z * 10 ^ (-f.exp).toNat = (if f.neg then -(f.mant : ℤ) else (f.mant : ℤ))

/-- Python `float(s)` on sanitized lowercase input: an optional leading `-`,
a digit string with optional `.`, and an optional `e`-exponent.  Returns
`none` where Python raises `ValueError`. -/
def parseFloat (w : Str) : Option PyFloat :=
  let sgnRest : Bool × Str := match w with
    | '-' :: r => (true, r)
    | r => (false, r)
  let parseMant : Str → Option (ℕ × ℤ) := fun m =>
    match splitOnceAt '.' m with
    | none => if m ≠ [] ∧ m.all Char.isDigit then some (digitsVal m, 0) else none
    | some (ip, fp) =>
      if (ip ≠ [] ∨ fp ≠ []) ∧ ip.all Char.isDigit ∧ fp.all Char.isDigit then
        some (digitsVal ip * 10 ^ fp.length + digitsVal fp, -(fp.length : ℤ))
      else none
  match splitOnceAt 'e' sgnRest.2 with
  | none => (parseMant sgnRest.2).map (fun p => ⟨sgnRest.1, p.1, p.2⟩)
  | some (mpart, epart) =>
    let esgnRest : Bool × Str := match epart with
      | '-' :: r => (true, r)
      | r => (false, r)
    match parseMant mpart with
    | none => none
    | some p =>
      if esgnRest.2 ≠ [] ∧ esgnRest.2.all Char.isDigit then
        some ⟨sgnRest.1, p.1, p.2 + (if esgnRest.1 then -(digitsVal esgnRest.2 : ℤ) else (digitsVal esgnRest.2 : ℤ))⟩
      else none

/-- Python `int(s)` on sanitized input; `none` where Python raises
`ValueError`. -/
def parseInt (w : Str) : Option ℤ :=
  match w with
  | '-' :: ds => if ds ≠ [] ∧ ds.all Char.isDigit then some (-(digitsVal ds : ℤ)) else none
  | ds => if ds ≠ [] ∧ ds.all Char.isDigit then some ((digitsVal ds : ℤ)) else none

/-- Python `f"{x:.2f}"` on an exact decimal: round half to even at two
decimal places, always printing exactly two fractional digits. -/
def format2f (x : PyFloat) : Str :=
  let e2 := x.exp + 2
  let n : ℕ :=
    if e2 ≥ 0 then x.mant * 10 ^ e2.toNat
    else
      let d := 10 ^ (-e2).toNat
      let q := x.mant / d
      let r := x.mant % d
      if 2 * r < d then q else if d < 2 * r then q + 1 else if q % 2 = 0 then q else q + 1
  (if x.neg then ['-'] else []) ++ natStr (n / 100) ++ ['.'] ++
    (if n % 100 < 10 then ['0'] else []) ++ natStr (n % 100)

/-- Python `repr`/f-string rendering of an exact-decimal float (used for the
`force constant=...` option-file line): trailing zeros of the fraction are
dropped, and an integral value prints one `.0`. -/
def pyFloatRepr (x : PyFloat) : Str :=
  let norm : ℕ × ℤ → ℕ × ℤ := fun p =>
    (List.range p.1.succ).foldl
      (fun q _ => if q.2 < 0 ∧ q.1 % 10 = 0 ∧ q.1 ≠ 0 then (q.1 / 10, q.2 + 1) else q) p
  let p := norm (x.mant, x.exp)
  let core : Str :=
    if p.2 ≥ 0 then natStr (p.1 * 10 ^ p.2.toNat) ++ ['.', '0']
    else
      let d := (-p.2).toNat
      natStr (p.1 / 10 ^ d) ++ ['.'] ++
        (List.replicate (d - (natStr (p.1 % 10 ^ d)).length) '0') ++ natStr (p.1 % 10 ^ d)
  (if x.neg ∧ x.mant ≠ 0 then ['-'] else []) ++ core

/-- `CalcType`: the calculation kinds handled by `XtbCalculation.EXECUTABLES`
(the taxonomy is an external collaborator; these are the members this
component accepts). -/
inductive CalcType where
  | OPT | CONSTR_OPT | FREQ | SP | UVVIS_TDA | OPTFREQ | CONF_SEARCH | CONSTR_CONF_SEARCH
deriving DecidableEq

/-- The two conformer-search kinds (`[CalcType.CONF_SEARCH,
CalcType.CONSTR_CONF_SEARCH]` as repeatedly listed in the source). -/
def confKinds : List CalcType := [CalcType.CONF_SEARCH, CalcType.CONSTR_CONF_SEARCH]

/-- A constraint command (external collaborator): its canonical text
rendering `to_xtb()`, the atom indices `ids`, the scan flag and the scan
range fields (kept as their rendered text). -/
structure Constraint where
  xtb : Str
  ids : List ℕ
  scan : Bool
  start_d : Str
  end_d : Str
  num_steps : Str
deriving DecidableEq

/-- `calc.parameters`. -/
structure Parameters where
  solvent : Str
  solvation_model : Str
  software : Str
  specifications : Str
deriving DecidableEq

/-- The calculation request object. -/
structure Calc where
  type : CalcType
  charge : ℤ
  multiplicity : ℤ
  parameters : Parameters
  constraints : List Constraint
  xyz : Str
  file : Str
deriving DecidableEq

/-- The two exception kinds observable from this component:
the library's `InvalidParameter` and an uncaught built-in `ValueError`. -/
inductive PyError where
  | invalidParameter (msg : Str)
  | valueError (msg : Str)
deriving DecidableEq

/-- `XtbCalculation.EXECUTABLES`. -/
def EXECUTABLES (t : CalcType) : Str :=
  match t with
  | .OPT => "xtb".data
  | .CONSTR_OPT => "xtb".data
  | .FREQ => "xtb".data
  | .SP => "xtb".data
  | .UVVIS_TDA => "stda".data
  | .OPTFREQ => "xtb".data
  | .CONF_SEARCH => "crest".data
  | .CONSTR_CONF_SEARCH => "crest".data

/-- `handle_command`: executable name, seeded `self.specifications` text and
seeded `self.cmd_arguments` text, per calculation kind. -/
def handleCommand (t : CalcType) : Str × Str × Str :=
  match t with
  | .OPT => (EXECUTABLES t, "--opt tight ".data, "--opt ".data)
  | .OPTFREQ => (EXECUTABLES t, "--ohess tight ".data, [])
  | .CONSTR_CONF_SEARCH => (EXECUTABLES t, [], "-cinp input ".data)
  | .CONSTR_OPT => (EXECUTABLES t, [], "--opt --input input ".data)
  | .FREQ => (EXECUTABLES t, [], "--hess ".data)
  | _ => (EXECUTABLES t, [], [])

/-- The parser state mutated by `handle_specifications` (initial values from
lines 167-173 of the source, plus the accumulating `self.cmd_arguments` and
`self.force_constant`). -/
structure SpecState where
  accuracy : PyFloat
  iterations : ℤ
  method : Str
  opt_level : Str
  rthr : Str
  ewin : Str
  force_constant : PyFloat
  cmd_arguments : Str
deriving DecidableEq

/-- Initial parser state: `accuracy = -1`, `iterations = -1`,
`method = "gfn2-xtb"`, `opt_level = "tight"`, `rthr = 0.6`, `ewin = 6`,
`force_constant = 1.0` (set in `__init__`), with the seeded
`self.cmd_arguments`. -/
def initSpecState (cmd0 : Str) : SpecState :=
  { accuracy := ⟨true, 1, 0⟩, iterations := -1, method := "gfn2-xtb".data,
    opt_level := "tight".data, rthr := "0.6".data, ewin := "6".data,
    force_constant := ⟨false, 1, 0⟩, cmd_arguments := cmd0 }

/-- One directive token's word list, dispatched as in the body of the
`for spec in specs` loop (lines 191-270). -/
def procSpec (t : CalcType) (st : SpecState) (ss : List Str) : Except PyError SpecState :=
  match ss with
  | [s0] =>
    if s0 = "gfn2".data ∨ s0 = "gfn1".data ∨ s0 = "gfn0".data ∨ s0 = "gfnff".data ∨
        s0 = "gfn2//gfnff".data then
      if s0 = "gfn2//gfnff".data ∧ t ∉ confKinds then
        .error (.invalidParameter ("Invalid method for calculation type: ".data ++ s0))
      else if s0 = "gfn2".data ∨ s0 = "gfn1".data ∨ s0 = "gfn0".data then
        .ok { st with method := s0.dropLast ++ [' ', s0.getLastD ' '] }
      else
        .ok { st with method := s0 }
    else if s0 = "nci".data then
      .ok { st with cmd_arguments := st.cmd_arguments ++ "--nci ".data }
    else if s0 = "quick".data then
      .ok { st with cmd_arguments := st.cmd_arguments ++ "--quick ".data }
    else if s0 = "squick".data then
      .ok { st with cmd_arguments := st.cmd_arguments ++ "--squick ".data }
    else if s0 = "mquick".data then
      .ok { st with cmd_arguments := st.cmd_arguments ++ "--mquick ".data }
    else
      .error (.invalidParameter "Invalid specification".data)
  | [s0, s1] =>
    if s0 = "o".data ∨ s0 = "opt".data then
      if s1 ∉ ["crude".data, "sloppy".data, "loose".data, "lax".data, "normal".data,
          "tight".data, "vtight".data, "extreme".data] then
        .error (.invalidParameter "Invalid optimization specification".data)
      else
        .ok { st with opt_level := s1 }
    else if s0 = "rthr".data then
      if t ∉ confKinds then
        .error (.invalidParameter "Invalid specification for calculation type: rthr".data)
      else
        .ok { st with rthr := s1 }
    else if s0 = "ewin".data then
      if t ∉ confKinds then
        .error (.invalidParameter "Invalid specification for calculation type: ewin".data)
      else
        .ok { st with ewin := s1 }
    else if s0 = "acc".data then
      match parseFloat s1 with
      | some f => .ok { st with accuracy := f }
      | none =>
        .error (.valueError ("could not convert string to float: ".data ++
          [quoteChar] ++ s1 ++ [quoteChar]))
    else if s0 = "iterations".data then
      match parseInt s1 with
      | some n => .ok { st with iterations := n }
      | none => .error (.invalidParameter "Invalid number of iterations: must be an integer".data)
    else if s0 = "forceconstant".data then
      match parseFloat s1 with
      | some f => .ok { st with force_constant := f }
      | none =>
        .error (.invalidParameter "Invalid force constant: must be a floating point value".data)
    else if s0 = "gfn".data then
      if s1 ∉ ["0".data, "1".data, "2".data] then
        .error (.invalidParameter "Invalid GFN version".data)
      else
        .ok { st with method := s0 ++ [' '] ++ s1 }
    else
      .error (.invalidParameter ("Unknown specification: ".data ++ s0))
  | _ => .error (.invalidParameter ("Invalid specification: ".data ++ pyListRepr ss))

/-- The `for spec in specs` loop: skip blank tokens, abort at the first
raised error. -/
def processTokens (t : CalcType) : List Str → SpecState → Except PyError SpecState
  | [], st => .ok st
  | tok :: rest, st =>
    if pyStrip tok = [] then processTokens t rest st
    else
      match procSpec t st (splitWs (pyStrip tok)) with
      | .error e => .error e
      | .ok st' => processTokens t rest st'

/-- Lines 272-273: `if accuracy != -1: self.cmd_arguments += f"--acc {accuracy:.2f} "`. -/
def emitAcc (st : SpecState) : SpecState :=
  if ¬ st.accuracy.eqInt (-1) then
    { st with cmd_arguments := st.cmd_arguments ++ "--acc ".data ++ format2f st.accuracy ++ [' '] }
  else st

/-- Lines 272-288: emit `--acc`/`--iterations`/`--<method>` for values that
differ from their unset sentinels/defaults, patch the `--opt ` fragment with
the optimization level, and for conformer-search kinds append
`--rthr`/`--ewin` and rewrite `--` prefixes to `-`. -/
def finalizeSpecs (t : CalcType) (st : SpecState) : SpecState :=
  let st1 := emitAcc st
  let st2 := if st1.iterations ≠ -1 then
    { st1 with cmd_arguments := st1.cmd_arguments ++ "--iterations ".data ++ intStr st1.iterations ++ [' '] }
    else st1
  let st3 := if st2.method ≠ "gfn2-xtb".data ∧ st2.method ≠ "gfn 2".data then
    { st2 with cmd_arguments := st2.cmd_arguments ++ "--".data ++ st2.method ++ [' '] }
    else st2
  let st4 := if st3.opt_level ≠ "normal".data then
    { st3 with cmd_arguments :=
        pyReplace "--opt ".data ("--opt ".data ++ st3.opt_level ++ [' ']) st3.cmd_arguments }
    else st3
  if t ∈ confKinds then
    let st5 := { st4 with cmd_arguments :=
      st4.cmd_arguments ++ "--rthr ".data ++ st4.rthr ++ " --ewin ".data ++ st4.ewin ++ [' '] }
    { st5 with cmd_arguments := pyReplace "--".data "-".data st5.cmd_arguments }
  else st4

/-- `handle_specifications`: sanitize and merge the seeded and user
specification text, tokenize on `--`, process every token, then finalize. -/
def handleSpecifications (t : CalcType) (seed user cmd0 : Str) : Except PyError SpecState :=
  let clean := pyReplace "  ".data " ".data (pyReplace "=".data " ".data (sanitize (seed ++ pyLower user)))
  let specs := splitOnDD (pyStrip clean)
  match processTokens t specs (initSpecState cmd0) with
  | .error e => .error e
  | .ok st => .ok (finalizeSpecs t st)

/-- The inner helper `add_to_str` of `compress_indices`: render the current
run as nothing, a single value, or `first-last`. -/
def addToStr : List ℕ → Str
  | [] => []
  | [x] => natStr x
  | x :: y :: r => natStr x ++ ['-'] ++ natStr ((y :: r).getLastD 0)

/-- `sorted(set(arr))`: the ascending list of the distinct elements. -/
def sortedDedup (arr : List ℕ) : List ℕ := List.insertionSort (· ≤ ·) arr.dedup

/-- One iteration of the scan loop of `compress_indices` (lines 102-110):
state = (completed runs rendered, current run). -/
def compressStep (st : List Str × List ℕ) (a : ℕ) : List Str × List ℕ :=
  match st.2 with
  | [] => (st.1, [a])
  | _ :: _ =>
    if a = st.2.getLastD 0 + 1 then (st.1, st.2 ++ [a])
    else (st.1 ++ [addToStr st.2], [a])

/-- `compress_indices`: sort the deduplicated indices ascending, scan once
extending the current consecutive run or closing it, close the final run,
and join with commas. -/
def compressIndices (arr : List ℕ) : Str :=
  let fin := (sortedDedup arr).foldl compressStep ([], [])
  List.intercalate [','] (fin.1 ++ [addToStr fin.2])

/-- `handle_constraints_scan`. -/
def handleConstraintsScan (fc : PyFloat) (cs : List Constraint) (f0 : Str) : Str :=
  if cs = [] then f0
  else
    let f1 := f0 ++ "$constrain\n".data ++ "force constant=".data ++ pyFloatRepr fc ++ ['\n']
    let f2 := f1 ++ (cs.map Constraint.xtb).flatten
    let has_scan := cs.any Constraint.scan
    if has_scan then
      f2 ++ "$scan\n".data ++
        (cs.enum.filterMap (fun p =>
          if p.2.scan then
            some (natStr (p.1 + 1) ++ ": ".data ++ p.2.start_d ++ ", ".data ++
              p.2.end_d ++ ", ".data ++ p.2.num_steps ++ ['\n'])
          else none)).flatten
    else f2

/-- The union (with multiplicity, in order) of the constraints' atom ids, as
accumulated by `constr_atoms += cmd.ids`. -/
def flatIds (cs : List Constraint) : List ℕ := (cs.map Constraint.ids).flatten

/-- The removal loop `for a in constr_atoms: if int(a) in mtd_atoms:
mtd_atoms.remove(int(a))`. -/
def removeAll (l : List ℕ) (ids : List ℕ) : List ℕ :=
  ids.foldl (fun acc a => if a ∈ acc then acc.erase a else acc) l

/-- The metadynamics atom list: `list(range(1, num_atoms))` with every
constrained id removed, where `num_atoms = len(xyz.split("\n"))`. -/
def mtdAtoms (xyz : Str) (cs : List Constraint) : List ℕ :=
  removeAll (List.range' 1 ((splitNl xyz).length - 1)) (flatIds cs)

/-- `handle_constraints_crest`. -/
def handleConstraintsCrest (xyz file : Str) (fc : PyFloat) (cs : List Constraint) (f0 : Str) : Str :=
  let input_file_name := basename file
  let f1 := f0 ++ "$constrain\n".data ++ "force constant=".data ++ pyFloatRepr fc ++ ['\n'] ++
    "reference=".data ++ input_file_name ++ ['\n']
  let f2 := f1 ++ (cs.map Constraint.xtb).flatten
  let f3 := f2 ++ "atoms: ".data ++ compressIndices (flatIds cs) ++ ['\n']
  f3 ++ "$metadyn\n".data ++ "atoms: ".data ++ compressIndices (mtdAtoms xyz cs) ++ ['\n']

/-- `handle_parameters`: solvent flag (via the external `get_solvent`
lookup), charge flag, multiplicity flag, appended to the accumulated
arguments. -/
def handleParameters (get_solvent : Str → Str → Option Str) (p : Parameters)
    (charge multiplicity : ℤ) (args0 : Str) : Except PyError Str :=
  let step1 : Except PyError Str :=
    if p.solvent ≠ [] then
      match get_solvent p.solvent p.software with
      | none => .error (.invalidParameter "Invalid solvent".data)
      | some kw =>
        if p.solvation_model = "gbsa".data then .ok (args0 ++ "-g ".data ++ kw ++ [' '])
        else if p.solvation_model = "alpb".data then .ok (args0 ++ "--alpb ".data ++ kw ++ [' '])
        else .error (.invalidParameter ("Invalid solvation method for xtb: ".data ++ p.solvation_model))
    else .ok args0
  match step1 with
  | .error e => .error e
  | .ok a1 =>
    let a2 := if charge ≠ 0 then a1 ++ "--chrg ".data ++ intStr charge ++ [' '] else a1
    .ok (if multiplicity ≠ 1 then a2 ++ "--uhf ".data ++ intStr multiplicity ++ [' '] else a2)

/-- The observable outputs of one `XtbCalculation` construction. -/
structure XtbOutput where
  program : Str
  cmd_arguments : Str
  option_file : Str
  command : Str
deriving DecidableEq

/-- `XtbCalculation.__init__`: `handle_command`, `handle_specifications`,
the kind-selected constraint encoder, `handle_parameters`,
`create_command`, with the first raised exception aborting construction. -/
def runXtb (get_solvent : Str → Str → Option Str) (c : Calc) : Except PyError XtbOutput :=
  let pc := handleCommand c.type
  match handleSpecifications c.type pc.2.1 c.parameters.specifications pc.2.2 with
  | .error e => .error e
  | .ok st =>
    let option_file :=
      if c.type = CalcType.CONSTR_CONF_SEARCH then
        handleConstraintsCrest c.xyz c.file st.force_constant c.constraints []
      else if c.type = CalcType.CONSTR_OPT then
        handleConstraintsScan st.force_constant c.constraints []
      else []
    match handleParameters get_solvent c.parameters c.charge c.multiplicity st.cmd_arguments with
    | .error e => .error e
    | .ok args =>
      .ok { program := pc.1, cmd_arguments := args, option_file := option_file,
            command := pc.1 ++ [' '] ++ basename c.file ++ [' '] ++ args }

/-! ## Generic lemmas about the embedded string operations -/

theorem splitOnDD_ne_nil (l : Str) : splitOnDD l ≠ [] := by
  match l with
  | [] => simp [splitOnDD]
  | [c] => simp [splitOnDD]
  | c :: d :: rest =>
    rw [splitOnDD]
    split
    · simp
    · split <;> simp

theorem splitOnDD_dd (r : Str) : splitOnDD ('-' :: '-' :: r) = [] :: splitOnDD r := by
  match r with
  | [] => rfl
  | e :: r' =>
    rw [splitOnDD]
    simp

theorem headI_cons_tail {α : Type} [Inhabited α] (l : List α) (h : l ≠ []) :
    l = l.headI :: l.tail := by
  cases l with
  | nil => exact absurd rfl h
  | cons a t => rfl

theorem splitOnDD_append_nondash (x r : Str) (hx : ∀ a ∈ x, a ≠ '-') :
    splitOnDD (x ++ r) = (x ++ (splitOnDD r).headI) :: (splitOnDD r).tail := by
  induction x with
  | nil =>
    simpa using headI_cons_tail (splitOnDD r) (splitOnDD_ne_nil r)
  | cons c x' ih =>
    have hc : c ≠ '-' := hx c (by simp)
    have hx' : ∀ a ∈ x', a ≠ '-' := fun a ha => hx a (by simp [ha])
    have ih' := ih hx'
    cases hxr : x' ++ r with
    | nil =>
      have hx'0 : x' = [] := (List.append_eq_nil.mp hxr).1
      have hr0 : r = [] := (List.append_eq_nil.mp hxr).2
      subst hx'0; subst hr0
      simp [splitOnDD]
    | cons d rest =>
      have hcd : ¬(c = '-' ∧ d = '-') := fun h => hc h.1
      have lhs : splitOnDD ((c :: x') ++ r) =
          match splitOnDD (d :: rest) with
          | [] => [[c]]
          | t :: ts => (c :: t) :: ts := by
        rw [List.cons_append, hxr, splitOnDD, if_neg hcd]
      rw [lhs, ← hxr, ih']
      simp

theorem splitWs_sp (c : Char) (r : Str) (h : isPySpace c = true) :
    splitWs (c :: r) = splitWs r := by
  rw [splitWs.eq_def]
  simp [h]

theorem splitWs_ns_one (c : Char) (h : isPySpace c = false) : splitWs [c] = [[c]] := by
  rw [splitWs.eq_def]
  simp [h]

theorem splitWs_ns_sp (c d : Char) (r : Str) (hc : isPySpace c = false)
    (hd : isPySpace d = true) : splitWs (c :: d :: r) = [c] :: splitWs (d :: r) := by
  rw [splitWs.eq_def]
  simp [hc, hd]

theorem splitWs_ne_nil_of_nonspace (c : Char) (r : Str) (hc : isPySpace c = false) :
    splitWs (c :: r) ≠ [] := by
  rw [splitWs.eq_def]
  simp only [hc, Bool.false_eq_true, if_false]
  cases r with
  | nil => simp
  | cons d r' =>
    by_cases hd : isPySpace d
    · simp [hd]
    · simp only [hd, Bool.false_eq_true, if_false]
      cases splitWs (d :: r') <;> simp

theorem splitWs_ns_ns (c d : Char) (r : Str) (hc : isPySpace c = false)
    (hd : isPySpace d = false) :
    splitWs (c :: d :: r) = (c :: (splitWs (d :: r)).headI) :: (splitWs (d :: r)).tail := by
  obtain ⟨w, ws, hw⟩ : ∃ w ws, splitWs (d :: r) = w :: ws := by
    cases hsw : splitWs (d :: r) with
    | nil => exact absurd hsw (splitWs_ne_nil_of_nonspace d r hd)
    | cons w ws => exact ⟨w, ws, rfl⟩
  rw [splitWs.eq_def]
  simp only [hc, hd, Bool.false_eq_true, if_false, hw]
  simp

theorem splitWs_word_append (w r : Str) (hw : w ≠ [])
    (hns : ∀ a ∈ w, isPySpace a = false) :
    splitWs (w ++ ' ' :: r) = w :: splitWs r := by
  induction w with
  | nil => exact absurd rfl hw
  | cons c w' ih =>
    have hc : isPySpace c = false := hns c (by simp)
    cases w' with
    | nil =>
      rw [List.cons_append, List.nil_append,
        splitWs_ns_sp c ' ' r hc (by rfl), splitWs_sp ' ' r (by rfl)]
    | cons d w'' =>
      have hd : isPySpace d = false := hns d (by simp)
      have ih' := ih (by simp) (fun a ha => hns a (by simp [ha]))
      rw [List.cons_append] at ih'
      rw [List.cons_append, List.cons_append,
        splitWs_ns_ns c d (w'' ++ ' ' :: r) hc hd, ih']
      simp

theorem splitWs_word (w : Str) (hw : w ≠ []) (hns : ∀ a ∈ w, isPySpace a = false) :
    splitWs w = [w] := by
  induction w with
  | nil => exact absurd rfl hw
  | cons c w' ih =>
    have hc : isPySpace c = false := hns c (by simp)
    cases w' with
    | nil => exact splitWs_ns_one c hc
    | cons d w'' =>
      have hd : isPySpace d = false := hns d (by simp)
      have ih' := ih (by simp) (fun a ha => hns a (by simp [ha]))
      rw [splitWs_ns_ns c d w'' hc hd, ih']
      simp

theorem pyReplaceAux_congr (pat rep : Str) (f₁ f₂ : ℕ) (l : Str)
    (h₁ : l.length ≤ f₁) (h₂ : l.length ≤ f₂) :
    pyReplaceAux pat rep f₁ l = pyReplaceAux pat rep f₂ l := by
  induction f₁ generalizing f₂ l with
  | zero =>
    cases l with
    | nil => cases f₂ <;> rfl
    | cons c t => simp at h₁
  | succ g₁ ih =>
    cases l with
    | nil => cases f₂ <;> rfl
    | cons c t =>
      cases f₂ with
      | zero => simp at h₂
      | succ g₂ =>
        rw [pyReplaceAux, pyReplaceAux]
        simp only [List.length_cons] at h₁ h₂
        have hdl : (t.drop (pat.length - 1)).length ≤ t.length := by
          rw [List.length_drop]
          omega
        by_cases hm : startsWith (c :: t) pat ∧ pat ≠ []
        · rw [if_pos hm, if_pos hm, ih g₂ (t.drop (pat.length - 1)) (by omega) (by omega)]
        · rw [if_neg hm, if_neg hm, ih g₂ t (by omega) (by omega)]

theorem pyReplace_cons (pat rep : Str) (c : Char) (t : Str) :
    pyReplace pat rep (c :: t) =
      if startsWith (c :: t) pat ∧ pat ≠ [] then
        rep ++ pyReplace pat rep (t.drop (pat.length - 1))
      else
        c :: pyReplace pat rep t := by
  have hdl : (t.drop (pat.length - 1)).length ≤ t.length := by
    rw [List.length_drop]
    omega
  rw [pyReplace]
  simp only [List.length_cons]
  rw [pyReplaceAux]
  by_cases hm : startsWith (c :: t) pat ∧ pat ≠ []
  · rw [if_pos hm, if_pos hm, pyReplace,
      pyReplaceAux_congr pat rep t.length (t.drop (pat.length - 1)).length
        (t.drop (pat.length - 1)) (by omega) le_rfl]
  · rw [if_neg hm, if_neg hm, pyReplace]

theorem pyReplace_nil (pat rep : Str) : pyReplace pat rep [] = [] := rfl

/-- Substring occurrence test (helper for reasoning about `pyReplace`). -/
def hasSub : Str → Str → Bool
  | l, pat =>
    startsWith l pat ||
      match l with
      | [] => false
      | _ :: t => hasSub t pat

theorem hasSub_cons (c : Char) (t pat : Str) :
    hasSub (c :: t) pat = (startsWith (c :: t) pat || hasSub t pat) := by
  rw [hasSub]

theorem pyReplace_of_no_occurrence (pat rep l : Str)
    (h : hasSub l pat = false) : pyReplace pat rep l = l := by
  induction l with
  | nil => rfl
  | cons c t ih =>
    rw [hasSub_cons, Bool.or_eq_false_iff] at h
    rw [pyReplace_cons, if_neg (by simp [h.1]), ih h.2]

/-- Scanning `s.replace("  ", " ")` over `x ++ r`: if `x` itself contains no
double space, the output still starts with `x` verbatim (a replacement can
straddle the boundary only when `x` ends in a space and `r` begins with one,
in which case the pair collapses onto the very space that ends `x`). -/
theorem collapse_keeps_nds (x r : Str) (hx : hasSub x [' ', ' '] = false) :
    ∃ r', pyReplace [' ', ' '] [' '] (x ++ r) = x ++ r' := by
  induction x generalizing r with
  | nil => exact ⟨pyReplace [' ', ' '] [' '] r, rfl⟩
  | cons c x' ih =>
    rw [hasSub_cons, Bool.or_eq_false_iff] at hx
    rw [List.cons_append, pyReplace_cons]
    by_cases hm : startsWith (c :: (x' ++ r)) [' ', ' '] = true ∧ ([' ', ' '] : Str) ≠ []
    · have hsw := hm.1
      rw [startsWith] at hsw
      rw [Bool.and_eq_true] at hsw
      have hcsp : c = ' ' := eq_of_beq hsw.1
      cases x' with
      | cons d x'' =>
        exfalso
        have hd : d = ' ' := by
          have h2 := hsw.2
          rw [List.cons_append, startsWith, Bool.and_eq_true] at h2
          exact eq_of_beq h2.1
        have hcon : startsWith (c :: d :: x'') [' ', ' '] = true := by
          simp [startsWith, hcsp, hd]
        rw [hcon] at hx
        simp at hx
      | nil =>
        cases r with
        | nil =>
          exfalso
          have h2 := hsw.2
          simp [startsWith] at h2
        | cons e r₂ =>
          have he : e = ' ' := by
            have h2 := hsw.2
            rw [List.nil_append, startsWith, Bool.and_eq_true] at h2
            exact eq_of_beq h2.1
          rw [if_pos hm]
          refine ⟨pyReplace [' ', ' '] [' '] r₂, ?_⟩
          simp [hcsp, he]
    · rw [if_neg hm]
      obtain ⟨r', hr'⟩ := ih r hx.2
      exact ⟨r', by rw [List.cons_append, hr']⟩

theorem trimRight_nil : trimRight [] = [] := rfl

theorem trimRight_eq_nil_iff (r : Str) :
    trimRight r = [] ↔ r.reverse.dropWhile isPySpace = [] := by
  constructor
  · intro h
    have h2 := congrArg List.reverse h
    rwa [trimRight, List.reverse_reverse] at h2
  · intro h
    rw [trimRight, h]
    rfl

theorem trimRight_append_of_ne_nil (x r : Str) (h : trimRight r ≠ []) :
    trimRight (x ++ r) = x ++ trimRight r := by
  have hne : r.reverse.dropWhile isPySpace ≠ [] := by
    intro hcon
    exact h ((trimRight_eq_nil_iff r).mpr hcon)
  rw [trimRight, List.reverse_append, List.dropWhile_append]
  cases hdw : r.reverse.dropWhile isPySpace with
  | nil => exact absurd hdw hne
  | cons a m =>
    simp only [List.isEmpty_cons, List.reverse_append]
    rw [trimRight, hdw]
    simp

theorem trimRight_append_of_nil (x r : Str) (h : trimRight r = []) :
    trimRight (x ++ r) = trimRight x := by
  rw [trimRight_eq_nil_iff] at h
  rw [trimRight, List.reverse_append, List.dropWhile_append, h]
  simp [trimRight]

theorem splitWs_dropWhile (l : Str) : splitWs (l.dropWhile isPySpace) = splitWs l := by
  induction l with
  | nil => rfl
  | cons c t ih =>
    by_cases hc : isPySpace c
    · rw [List.dropWhile_cons_of_pos hc, splitWs_sp c t hc, ih]
    · rw [List.dropWhile_cons_of_neg hc]

theorem splitWs_append_space (m : Str) (c : Char) (hc : isPySpace c = true) :
    splitWs (m ++ [c]) = splitWs m := by
  induction m with
  | nil => rw [List.nil_append, splitWs_sp c [] hc]
  | cons a m' ih =>
    by_cases ha : isPySpace a
    · rw [List.cons_append, splitWs_sp a (m' ++ [c]) ha, splitWs_sp a m' ha, ih]
    · have ha' : isPySpace a = false := by simpa using ha
      cases m' with
      | nil =>
        rw [List.cons_append, List.nil_append, splitWs_ns_sp a c [] ha' hc,
          splitWs_sp c [] hc, splitWs_ns_one a ha']
        rfl
      | cons b m'' =>
        by_cases hb : isPySpace b
        · rw [List.cons_append, List.cons_append,
            splitWs_ns_sp a b (m'' ++ [c]) ha' hb, splitWs_ns_sp a b m'' ha' hb]
          rw [List.cons_append] at ih
          rw [ih]
        · have hb' : isPySpace b = false := by simpa using hb
          rw [List.cons_append, List.cons_append,
            splitWs_ns_ns a b (m'' ++ [c]) ha' hb', splitWs_ns_ns a b m'' ha' hb']
          rw [List.cons_append] at ih
          rw [ih]

theorem splitWs_trimRight (l : Str) : splitWs (trimRight l) = splitWs l := by
  induction l using List.reverseRecOn with
  | nil => rfl
  | append_singleton m c ih =>
    by_cases hc : isPySpace c
    · rw [trimRight_append_of_nil m [c] (by simp [trimRight, hc]), ih,
        splitWs_append_space m c hc]
    · rw [trimRight_append_of_ne_nil m [c] (by simp [trimRight, hc])]
      have : trimRight [c] = [c] := by simp [trimRight, hc]
      rw [this]

theorem splitWs_pyStrip (l : Str) : splitWs (pyStrip l) = splitWs l := by
  rw [pyStrip, splitWs_dropWhile, splitWs_trimRight]

theorem splitWs_eq_nil_iff (l : Str) : splitWs l = [] ↔ ∀ c ∈ l, isPySpace c = true := by
  induction l with
  | nil => simp [splitWs]
  | cons c t ih =>
    by_cases hc : isPySpace c
    · rw [splitWs_sp c t hc, ih]
      simp [hc]
    · have hc' : isPySpace c = false := by simpa using hc
      constructor
      · intro h
        exact absurd h (splitWs_ne_nil_of_nonspace c t hc')
      · intro h
        have := h c (by simp)
        rw [hc'] at this
        cases this

theorem mem_dropWhile_of_not (p : Char → Bool) (l : Str) (c : Char) (hc : c ∈ l)
    (hp : p c = false) : c ∈ l.dropWhile p := by
  induction l with
  | nil => cases hc
  | cons a t ih =>
    by_cases ha : p a
    · rw [List.dropWhile_cons_of_pos ha]
      rcases List.mem_cons.mp hc with hca | hct
      · subst hca
        rw [hp] at ha
        cases ha
      · exact ih hct
    · rw [List.dropWhile_cons_of_neg ha]
      exact hc

theorem pyStrip_eq_nil_iff (l : Str) : pyStrip l = [] ↔ ∀ c ∈ l, isPySpace c = true := by
  constructor
  · intro h c hc
    by_contra hns
    have hns' : isPySpace c = false := by simpa using hns
    have hcr : c ∈ l.reverse := by simpa using hc
    have hcd : c ∈ l.reverse.dropWhile isPySpace := mem_dropWhile_of_not _ _ _ hcr hns'
    have hct : c ∈ trimRight l := by
      rw [trimRight]
      simpa using hcd
    rw [pyStrip, List.dropWhile_eq_nil_iff] at h
    have := h c hct
    rw [hns'] at this
    cases this
  · intro h
    have htr : trimRight l = [] := by
      rw [trimRight_eq_nil_iff, List.dropWhile_eq_nil_iff]
      intro a ha
      exact h a (by simpa using ha)
    rw [pyStrip, htr]
    rfl

/-! ## The index range compressor: specification and invariance -/

/-- Specification-side definition, from the spec's words (§4.4): the maximal
consecutive runs of a list, each run extended while the next value is the
previous plus one.  (`headD (a + 2)` makes the guard false on an empty rest.) -/
def runsSpec : List ℕ → List (List ℕ)
  | [] => []
  | a :: rest =>
    if (runsSpec rest).headI.headD (a + 2) = a + 1 then
      (a :: (runsSpec rest).headI) :: (runsSpec rest).tail
    else
      [a] :: runsSpec rest

/-- Specification-side rendering of one run, from the spec's words: a single
value for a run of length 1, else `first-last`. -/
def renderRun (r : List ℕ) : Str :=
  if r.length = 1 then natStr (r.headD 0)
  else natStr (r.headD 0) ++ ['-'] ++ natStr (r.getLastD 0)

/-- The scan loop of `compress_indices`, abstracted over the open current
run (helper for relating the fold to `runsSpec`). -/
def gRuns : List ℕ → List ℕ → List (List ℕ)
  | curr, [] => [curr]
  | curr, a :: l =>
    if a = curr.getLastD 0 + 1 then gRuns (curr ++ [a]) l else curr :: gRuns [a] l

theorem foldl_compressStep (l : List ℕ) (comp : List Str) (curr : List ℕ)
    (hc : curr ≠ []) :
    (l.foldl compressStep (comp, curr)).1 ++ [addToStr (l.foldl compressStep (comp, curr)).2]
      = comp ++ (gRuns curr l).map addToStr := by
  induction l generalizing comp curr with
  | nil => simp [gRuns]
  | cons a l ih =>
    obtain ⟨c0, curr', hcurr⟩ : ∃ c0 curr', curr = c0 :: curr' := by
      cases curr with
      | nil => exact absurd rfl hc
      | cons c0 curr' => exact ⟨c0, curr', rfl⟩
    subst hcurr
    rw [List.foldl_cons]
    rw [gRuns]
    by_cases hx : a = (c0 :: curr').getLastD 0 + 1
    · have hstep : compressStep (comp, c0 :: curr') a = (comp, (c0 :: curr') ++ [a]) := by
        simp [compressStep, hx]
      rw [hstep, if_pos hx, ih comp ((c0 :: curr') ++ [a]) (by simp)]
    · have hx' : ¬a = (c0 :: curr').getLast?.getD 0 + 1 := by
        rwa [← List.getLastD_eq_getLast?]
      have hstep : compressStep (comp, c0 :: curr') a =
          (comp ++ [addToStr (c0 :: curr')], [a]) := by
        simp [compressStep, hx']
      rw [hstep, if_neg hx, ih (comp ++ [addToStr (c0 :: curr')]) [a] (by simp)]
      simp

theorem runsSpec_cons_shape (a : ℕ) (l : List ℕ) :
    ∃ t rs, runsSpec (a :: l) = (a :: t) :: rs := by
  rw [runsSpec]
  by_cases h : (runsSpec l).headI.headD (a + 2) = a + 1
  · rw [if_pos h]
    exact ⟨(runsSpec l).headI, (runsSpec l).tail, rfl⟩
  · rw [if_neg h]
    exact ⟨[], runsSpec l, rfl⟩

theorem getLastD_concat_self (l : List ℕ) (m : ℕ) (d : ℕ) :
    (l ++ [m]).getLastD d = m := by
  induction l generalizing d with
  | nil => rfl
  | cons a l ih =>
    rw [List.cons_append, List.getLastD_cons]
    exact ih a

theorem gRuns_eq_runsSpec (l : List ℕ) (c : List ℕ) (m : ℕ) :
    gRuns (c ++ [m]) l = (c ++ (runsSpec (m :: l)).headI) :: (runsSpec (m :: l)).tail := by
  induction l generalizing c m with
  | nil =>
    rw [gRuns]
    have h1 : runsSpec [m] = [[m]] := by
      rw [runsSpec]
      have hd : (runsSpec ([] : List ℕ)).headI.headD (m + 2) = m + 2 := rfl
      rw [if_neg (by rw [hd]; omega)]
      rfl
    rw [h1]
    simp
  | cons a l ih =>
    obtain ⟨t, rs, ht⟩ := runsSpec_cons_shape a l
    have hcond : ((runsSpec (a :: l)).headI.headD (m + 2) = m + 1) ↔ a = m + 1 := by
      rw [ht]
      simp
    rw [gRuns, getLastD_concat_self]
    by_cases ha : a = m + 1
    · rw [if_pos ha]
      have h2 := ih (c ++ [m]) a
      rw [h2, ht]
      have hmal : runsSpec (m :: a :: l) = (m :: a :: t) :: rs := by
        rw [runsSpec, if_pos (hcond.mpr ha), ht]
        simp
      rw [hmal]
      simp
    · rw [if_neg ha]
      have h2 := ih ([] : List ℕ) a
      rw [List.nil_append] at h2
      have hmal : runsSpec (m :: a :: l) = [m] :: (a :: t) :: rs := by
        rw [runsSpec, if_neg (fun hcon => ha (hcond.mp hcon)), ht]
      rw [h2, ht, hmal]
      simp

theorem runsSpec_no_nil (l : List ℕ) : ∀ r ∈ runsSpec l, r ≠ [] := by
  induction l with
  | nil => simp [runsSpec]
  | cons a l ih =>
    intro r hr
    rw [runsSpec] at hr
    by_cases h : (runsSpec l).headI.headD (a + 2) = a + 1
    · rw [if_pos h] at hr
      rcases List.mem_cons.mp hr with h1 | h1
      · simp [h1]
      · exact ih r (List.mem_of_mem_tail h1)
    · rw [if_neg h] at hr
      rcases List.mem_cons.mp hr with h1 | h1
      · simp [h1]
      · exact ih r h1

theorem getLastD_irrel (a : ℕ) (l : List ℕ) (d₁ d₂ : ℕ) :
    (a :: l).getLastD d₁ = (a :: l).getLastD d₂ := by
  simp only [List.getLastD_cons]

theorem addToStr_eq_renderRun (r : List ℕ) (hr : r ≠ []) : addToStr r = renderRun r := by
  match r with
  | [x] => rfl
  | x :: y :: rest =>
    rw [addToStr, renderRun, if_neg (by simp)]
    have h1 : (x :: y :: rest).getLastD 0 = (y :: rest).getLastD x := List.getLastD_cons _ _ _
    have h2 : (y :: rest).getLastD x = (y :: rest).getLastD 0 := getLastD_irrel _ _ _ _
    rw [h1, h2]
    simp

/-- `compress_indices` computes exactly the comma-joined rendering of the
maximal consecutive runs of the ascending deduplicated input. -/
theorem compressIndices_eq_runsSpec (arr : List ℕ) :
    compressIndices arr =
      List.intercalate [','] ((runsSpec (sortedDedup arr)).map renderRun) := by
  rw [compressIndices]
  cases hs : sortedDedup arr with
  | nil => rfl
  | cons a l =>
    have hstep0 : List.foldl compressStep ([], []) (a :: l)
        = List.foldl compressStep ([], [a]) l := by
      rw [List.foldl_cons]
      rfl
    rw [hstep0]
    have hfold := foldl_compressStep l [] [a] (by simp)
    have hg : gRuns [a] l = runsSpec (a :: l) := by
      have h2 := gRuns_eq_runsSpec l [] a
      rw [List.nil_append] at h2
      rw [h2]
      obtain ⟨t, rs, ht⟩ := runsSpec_cons_shape a l
      rw [ht]
      simp
    rw [hfold, hg, List.nil_append]
    congr 1
    exact List.map_congr_left (fun r hr => addToStr_eq_renderRun r (runsSpec_no_nil _ r hr))

theorem sortedDedup_eq_of_toFinset_eq (l₁ l₂ : List ℕ) (h : l₁.toFinset = l₂.toFinset) :
    sortedDedup l₁ = sortedDedup l₂ := by
  have hmem : ∀ a, a ∈ l₁.dedup ↔ a ∈ l₂.dedup := by
    intro a
    rw [List.mem_dedup, List.mem_dedup, ← List.mem_toFinset, ← List.mem_toFinset, h]
  have hperm : l₁.dedup.Perm l₂.dedup := by
    rw [List.perm_iff_count]
    intro a
    by_cases ha : a ∈ l₁.dedup
    · rw [List.count_eq_one_of_mem l₁.nodup_dedup ha,
        List.count_eq_one_of_mem l₂.nodup_dedup ((hmem a).mp ha)]
    · rw [List.count_eq_zero.mpr ha, List.count_eq_zero.mpr (fun hb => ha ((hmem a).mpr hb))]
  exact List.eq_of_perm_of_sorted
    (((List.perm_insertionSort _ _).trans hperm).trans (List.perm_insertionSort _ _).symm)
    (List.sorted_insertionSort _ _) (List.sorted_insertionSort _ _)

theorem compressIndices_toFinset_congr (l₁ l₂ : List ℕ) (h : l₁.toFinset = l₂.toFinset) :
    compressIndices l₁ = compressIndices l₂ := by
  rw [compressIndices, compressIndices, sortedDedup_eq_of_toFinset_eq l₁ l₂ h]

/-! ## The constraint encoders -/

theorem removeAll_eq_filter (l ids : List ℕ) (hl : l.Nodup) :
    removeAll l ids = l.filter (fun x => decide (¬ x ∈ ids)) := by
  induction ids generalizing l with
  | nil =>
    rw [removeAll, List.foldl_nil, eq_comm, List.filter_eq_self]
    simp
  | cons a ids ih =>
    have hstep : (if a ∈ l then l.erase a else l) = l.filter (fun x => x != a) := by
      by_cases ha : a ∈ l
      · rw [if_pos ha, List.Nodup.erase_eq_filter hl a]
      · rw [if_neg ha, eq_comm, List.filter_eq_self]
        intro b hb
        simp only [bne_iff_ne, ne_eq]
        rintro rfl
        exact ha hb
    have h1 : removeAll l (a :: ids) = removeAll (l.filter (fun x => x != a)) ids := by
      rw [removeAll, List.foldl_cons, hstep]
      rfl
    rw [h1, ih _ (hl.filter _), List.filter_filter]
    congr 1
    funext x
    by_cases hxa : x = a
    · subst hxa
      simp
    · by_cases hxi : x ∈ ids <;> simp [hxa, hxi]

theorem mtdAtoms_eq_filter (xyz : Str) (cs : List Constraint) :
    mtdAtoms xyz cs = (List.range' 1 ((splitNl xyz).length - 1)).filter
      (fun x => decide (¬ x ∈ flatIds cs)) := by
  rw [mtdAtoms, removeAll_eq_filter _ _ (List.nodup_range' _ _)]

theorem filter_not_mem_onetwo (n : ℕ) (ids : List ℕ) (hsub : ∀ x ∈ ids, x = 1 ∨ x = 2)
    (h1 : (1 : ℕ) ∈ ids) (h2 : (2 : ℕ) ∈ ids) :
    (List.range' 1 n).filter (fun x => decide (¬ x ∈ ids)) = List.range' 3 (n - 2) := by
  match n with
  | 0 => rfl
  | 1 => simp [List.range', h1]
  | (k + 2) =>
    have hsplit : List.range' 1 (k + 2) = List.range' 1 2 ++ List.range' 3 k :=
      (List.range'_append_1 1 2 k).symm
    rw [hsplit, List.filter_append]
    have hfront : (List.range' 1 2).filter (fun x => decide (¬ x ∈ ids)) = [] := by
      simp [List.range', h1, h2]
    have hback : (List.range' 3 k).filter (fun x => decide (¬ x ∈ ids)) = List.range' 3 k := by
      rw [List.filter_eq_self]
      intro b hb
      have hb3 : 3 ≤ b := by
        have := List.mem_range'_1.mp hb
        omega
      simp only [decide_eq_true_eq]
      intro hbin
      rcases hsub b hbin with h | h <;> omega
    rw [hfront, hback, List.nil_append]
    norm_num

/-! ## Destructuring the construction pipeline -/

theorem runXtb_ok_shape (lk : Str → Str → Option Str) (c : Calc) (out : XtbOutput)
    (h : runXtb lk c = .ok out) :
    ∃ st args,
      handleSpecifications c.type (handleCommand c.type).2.1
        c.parameters.specifications (handleCommand c.type).2.2 = .ok st ∧
      handleParameters lk c.parameters c.charge c.multiplicity st.cmd_arguments = .ok args ∧
      out = { program := (handleCommand c.type).1, cmd_arguments := args,
              option_file :=
                (if c.type = CalcType.CONSTR_CONF_SEARCH then
                  handleConstraintsCrest c.xyz c.file st.force_constant c.constraints []
                else if c.type = CalcType.CONSTR_OPT then
                  handleConstraintsScan st.force_constant c.constraints []
                else []),
              command := (handleCommand c.type).1 ++ [' '] ++ basename c.file ++ [' '] ++ args } := by
  rw [runXtb] at h
  cases hs : handleSpecifications c.type (handleCommand c.type).2.1
      c.parameters.specifications (handleCommand c.type).2.2 with
  | error e =>
    rw [hs] at h
    cases h
  | ok st =>
    rw [hs] at h
    dsimp only at h
    cases hp : handleParameters lk c.parameters c.charge c.multiplicity st.cmd_arguments with
    | error e =>
      rw [hp] at h
      cases h
    | ok args =>
      rw [hp] at h
      dsimp only at h
      refine ⟨st, args, rfl, hp, ?_⟩
      cases h
      rfl

theorem runXtb_error_of_spec_error (lk : Str → Str → Option Str) (c : Calc) (e : PyError)
    (h : handleSpecifications c.type (handleCommand c.type).2.1
      c.parameters.specifications (handleCommand c.type).2.2 = .error e) :
    runXtb lk c = .error e := by
  rw [runXtb, h]

/-! ## Stepping the token loop -/

theorem processTokens_cons_skip (t : CalcType) (tok : Str) (rest : List Str)
    (st : SpecState) (h : pyStrip tok = []) :
    processTokens t (tok :: rest) st = processTokens t rest st := by
  rw [processTokens, if_pos h]

theorem processTokens_cons_error (t : CalcType) (tok : Str) (rest : List Str)
    (st : SpecState) (e : PyError) (hne : pyStrip tok ≠ [])
    (he : procSpec t st (splitWs (pyStrip tok)) = .error e) :
    processTokens t (tok :: rest) st = .error e := by
  rw [processTokens, if_neg hne, he]

theorem processTokens_cons_ok (t : CalcType) (tok : Str) (rest : List Str)
    (st st' : SpecState) (hne : pyStrip tok ≠ [])
    (hok : procSpec t st (splitWs (pyStrip tok)) = .ok st') :
    processTokens t (tok :: rest) st = processTokens t rest st' := by
  rw [processTokens, if_neg hne, hok]

theorem handleSpecifications_eq (t : CalcType) (seed user cmd0 : Str) :
    handleSpecifications t seed user cmd0 =
      match processTokens t (splitOnDD (pyStrip (pyReplace "  ".data " ".data
          (pyReplace "=".data " ".data (sanitize (seed ++ pyLower user))))))
          (initSpecState cmd0) with
      | .error e => .error e
      | .ok st => .ok (finalizeSpecs t st) := rfl

theorem pyReplace_single_char (a b : Char) (l : Str) :
    pyReplace [a] [b] l = l.map (fun c => if c = a then b else c) := by
  induction l with
  | nil => rfl
  | cons c t ih =>
    rw [pyReplace_cons]
    by_cases hc : c = a
    · rw [if_pos (by simp [startsWith, hc])]
      simp only [List.length_cons, List.length_nil, Nat.zero_add, Nat.sub_self, List.drop_zero]
      rw [ih]
      simp [hc]
    · rw [if_neg (by simp [startsWith, hc])]
      rw [ih]
      simp [hc]

/-! ## The seeded `--ohess tight ` directive of optimization+frequency -/

/-- Whatever the user's specification text is, the token stream of an
optimization+frequency request starts with an empty token followed by a
token whose first two words are `ohess` and `tight`; the dispatcher
rejects it before any user directive is processed. -/
theorem ohess_always_errors (t : CalcType) (user cmd0 : Str) :
    ∃ msg, handleSpecifications t "--ohess tight ".data user cmd0 =
      .error (.invalidParameter msg) := by
  rw [handleSpecifications_eq]
  -- sanitize keeps the seed verbatim
  have hsan : sanitize ("--ohess tight ".data ++ pyLower user)
      = "--ohess tight ".data ++ sanitize (pyLower user) := by
    rw [sanitize, sanitize, List.filter_append]
    congr 1
  -- the `=` → ` ` pass keeps the seed verbatim
  have heq : pyReplace "=".data " ".data ("--ohess tight ".data ++ sanitize (pyLower user))
      = "--ohess tight ".data ++
        (sanitize (pyLower user)).map (fun c => if c = '=' then ' ' else c) := by
    rw [pyReplace_single_char, List.map_append]
    congr 1
  -- the double-space collapse keeps the seed as a prefix
  obtain ⟨r2, hr2⟩ := collapse_keeps_nds "--ohess tight ".data
    ((sanitize (pyLower user)).map (fun c => if c = '=' then ' ' else c)) (by decide)
  rw [hsan, heq, hr2]
  -- strip: two cases according to whether anything of `r2` survives
  by_cases htr : trimRight r2 = []
  · have hstrip : pyStrip ("--ohess tight ".data ++ r2) = "--ohess tight".data := by
      rw [pyStrip, trimRight_append_of_nil _ _ htr]
      decide
    rw [hstrip]
    have hsplit : splitOnDD "--ohess tight".data = [[], "ohess tight".data] := by decide
    rw [hsplit]
    refine ⟨"Unknown specification: ohess".data, ?_⟩
    rw [processTokens_cons_skip _ _ _ _ (by decide)]
    rw [processTokens_cons_error _ _ _ _ _ (by decide) (by rfl)]
    rfl
  · have hstrip : pyStrip ("--ohess tight ".data ++ r2)
        = "--ohess tight ".data ++ trimRight r2 := by
      rw [pyStrip, trimRight_append_of_ne_nil _ _ htr]
      rw [List.cons_append]
      rw [List.dropWhile_cons_of_neg (by decide)]
    rw [hstrip]
    have hsplit : splitOnDD ("--ohess tight ".data ++ trimRight r2)
        = [] :: ("ohess tight ".data ++ (splitOnDD (trimRight r2)).headI)
            :: (splitOnDD (trimRight r2)).tail := by
      have hdd : ("--ohess tight ".data ++ trimRight r2)
          = '-' :: '-' :: ("ohess tight ".data ++ trimRight r2) := rfl
      rw [hdd, splitOnDD_dd, splitOnDD_append_nondash "ohess tight ".data _ (by decide)]
    rw [hsplit]
    set tok := "ohess tight ".data ++ (splitOnDD (trimRight r2)).headI with htok
    have hne : pyStrip tok ≠ [] := by
      intro hcon
      rw [pyStrip_eq_nil_iff] at hcon
      have := hcon 'o' (by rw [htok]; simp)
      cases this
    have hws : splitWs (pyStrip tok) =
        "ohess".data :: "tight".data :: splitWs (splitOnDD (trimRight r2)).headI := by
      rw [splitWs_pyStrip, htok]
      have hshape : "ohess tight ".data ++ (splitOnDD (trimRight r2)).headI
          = "ohess".data ++ ' ' :: ("tight".data ++ ' ' :: (splitOnDD (trimRight r2)).headI) := by
        rfl
      rw [hshape, splitWs_word_append "ohess".data _ (by decide) (by decide),
        splitWs_word_append "tight".data _ (by decide) (by decide)]
    cases hsw : splitWs (splitOnDD (trimRight r2)).headI with
    | nil =>
      refine ⟨"Unknown specification: ohess".data, ?_⟩
      rw [processTokens_cons_skip _ _ _ _ (by decide),
        processTokens_cons_error _ _ _ _ _ hne (by rw [hws, hsw]; rfl)]
      rfl
    | cons w ws =>
      refine ⟨"Invalid specification: ".data ++
        pyListRepr ("ohess".data :: "tight".data :: w :: ws), ?_⟩
      rw [processTokens_cons_skip _ _ _ _ (by decide),
        processTokens_cons_error _ _ _ _ _ hne (by rw [hws, hsw]; rfl)]

/-! ## Specification texts composed of recognized single-word directives -/

/-- The recognized single-word directives (method names plus the four
pass-through flags). -/
def singleWords : List Str :=
  ["gfn2".data, "gfn1".data, "gfn0".data, "gfnff".data, "gfn2//gfnff".data,
   "nci".data, "quick".data, "squick".data, "mquick".data]

/-- The single-word method directives. -/
def methodWords : List Str :=
  ["gfn2".data, "gfn1".data, "gfn0".data, "gfnff".data, "gfn2//gfnff".data]

/-- The parser's normalization of an accepted method name
(`gfn2` ↦ `gfn 2` etc.; `gfnff` and `gfn2//gfnff` stay as they are). -/
def normalizeMethod (w : Str) : Str :=
  if w = "gfn2".data ∨ w = "gfn1".data ∨ w = "gfn0".data then
    w.dropLast ++ [' ', w.getLastD ' ']
  else w

/-- A specification text composed only of the given directives, each written
`--<word> `. -/
def specOfWords (ws : List Str) : Str :=
  (ws.map (fun w => "--".data ++ w ++ " ".data)).flatten

/-- The method selected after processing the words in order: the last method
directive wins, the others leave it unchanged. -/
def lastMethod (ws : List Str) (m0 : Str) : Str :=
  ws.foldl (fun m w => if w ∈ methodWords then normalizeMethod w else m) m0

theorem procSpec_single_word (t : CalcType) (st : SpecState) (w : Str)
    (hw : w ∈ singleWords) (hc : w = "gfn2//gfnff".data → t ∈ confKinds) :
    procSpec t st [w] = .ok
      (if w ∈ methodWords then { st with method := normalizeMethod w }
       else { st with cmd_arguments := st.cmd_arguments ++ ("--".data ++ w ++ " ".data) }) := by
  have hw' : w = "gfn2".data ∨ w = "gfn1".data ∨ w = "gfn0".data ∨ w = "gfnff".data ∨
      w = "gfn2//gfnff".data ∨ w = "nci".data ∨ w = "quick".data ∨ w = "squick".data ∨
      w = "mquick".data := by
    simpa [singleWords] using hw
  rcases hw' with rfl | rfl | rfl | rfl | rfl | rfl | rfl | rfl | rfl
  · rfl
  · rfl
  · rfl
  · rfl
  · have ht := hc rfl
    cases t
    · exact absurd ht (by decide)
    · exact absurd ht (by decide)
    · exact absurd ht (by decide)
    · exact absurd ht (by decide)
    · exact absurd ht (by decide)
    · exact absurd ht (by decide)
    · rfl
    · rfl
  · rfl
  · rfl
  · rfl
  · rfl

/-- The directive tokens produced for a `--w1 --w2 ... --wn ` text after the
final strip: every word keeps its trailing space except the last. -/
def tokensT : List Str → List Str
  | [] => []
  | [w] => [w]
  | w :: v :: rest => (w ++ " ".data) :: tokensT (v :: rest)

theorem word_facts (w : Str) (hw : w ∈ singleWords) :
    pyStrip w ≠ [] ∧ splitWs (pyStrip w) = [w] ∧
      pyStrip (w ++ " ".data) ≠ [] ∧ splitWs (pyStrip (w ++ " ".data)) = [w] := by
  fin_cases hw <;> refine ⟨by decide, by decide, by decide, by decide⟩

theorem processTokens_tokensT (t : CalcType) (ws : List Str)
    (hall : ∀ w ∈ ws, w ∈ singleWords)
    (hconf : "gfn2//gfnff".data ∈ ws → t ∈ confKinds) :
    ∀ st : SpecState, ∃ st' : SpecState,
      processTokens t (tokensT ws) st = .ok st' ∧
      st'.method = lastMethod ws st.method ∧
      st'.accuracy = st.accuracy ∧ st'.iterations = st.iterations ∧
      st'.opt_level = st.opt_level := by
  induction ws with
  | nil =>
    intro st
    exact ⟨st, rfl, rfl, rfl, rfl, rfl⟩
  | cons w ws ih =>
    intro st
    have hw : w ∈ singleWords := hall w (by simp)
    have hcw : w = "gfn2//gfnff".data → t ∈ confKinds := fun h => hconf (by simp [h])
    obtain ⟨h1, h2, h3, h4⟩ := word_facts w hw
    have hproc := procSpec_single_word t st w hw hcw
    set st₁ := (if w ∈ methodWords then { st with method := normalizeMethod w }
       else { st with cmd_arguments := st.cmd_arguments ++ ("--".data ++ w ++ " ".data) })
      with hst₁
    have hfields : st₁.method = (if w ∈ methodWords then normalizeMethod w else st.method) ∧
        st₁.accuracy = st.accuracy ∧ st₁.iterations = st.iterations ∧
        st₁.opt_level = st.opt_level := by
      rw [hst₁]
      by_cases hmw : w ∈ methodWords
      · rw [if_pos hmw, if_pos hmw]
        exact ⟨rfl, rfl, rfl, rfl⟩
      · rw [if_neg hmw, if_neg hmw]
        exact ⟨rfl, rfl, rfl, rfl⟩
    have hlast : lastMethod (w :: ws) st.method = lastMethod ws st₁.method := by
      rw [lastMethod, List.foldl_cons, ← lastMethod, hfields.1]
    cases ws with
    | nil =>
      refine ⟨st₁, ?_, ?_, hfields.2.1, hfields.2.2.1, hfields.2.2.2⟩
      · rw [tokensT, processTokens_cons_ok t w [] st st₁ h1 (by rw [h2, hproc]), processTokens]
      · rw [hlast]
        exact rfl
    | cons v rest =>
      obtain ⟨st', hst', hm, ha, hi, ho⟩ := ih (fun x hx => hall x (by simp [hx]))
        (fun h => hconf (by simp [h])) st₁
      refine ⟨st', ?_, ?_, ?_, ?_, ?_⟩
      · rw [tokensT, processTokens_cons_ok t (w ++ " ".data) (tokensT (v :: rest)) st st₁ h3
          (by rw [h4, hproc]), hst']
      · rw [hlast, hm]
      · rw [ha, hfields.2.1]
      · rw [hi, hfields.2.2.1]
      · rw [ho, hfields.2.2.2]

/-- No two adjacent spaces. -/
def noDS : Str → Bool
  | a :: b :: r => !(a == ' ' && b == ' ') && noDS (b :: r)
  | _ => true

theorem hasSub_dd_false_of_noDS (l : Str) (h : noDS l = true) :
    hasSub l [' ', ' '] = false := by
  induction l with
  | nil => rfl
  | cons a r ih =>
    cases r with
    | nil => simp [hasSub, startsWith]
    | cons b r' =>
      rw [noDS, Bool.and_eq_true] at h
      rw [hasSub_cons, Bool.or_eq_false_iff]
      constructor
      · have hprop : ¬(a = ' ' ∧ b = ' ') := by
          have h1 := h.1
          simp at h1
          tauto
        by_cases ha : a = ' '
        · have hb : ¬b = ' ' := fun hb => hprop ⟨ha, hb⟩
          simp [startsWith, ha, hb]
        · simp [startsWith, ha]
      · exact ih h.2

theorem noDS_append (x y : Str) (hx : noDS x = true) (hy : noDS y = true)
    (hj : ∀ a b, x.getLast? = some a → y.head? = some b → ¬(a = ' ' ∧ b = ' ')) :
    noDS (x ++ y) = true := by
  induction x with
  | nil => exact hy
  | cons a x' ih =>
    cases x' with
    | nil =>
      cases y with
      | nil => rfl
      | cons b y' =>
        rw [List.singleton_append, noDS, Bool.and_eq_true]
        refine ⟨?_, hy⟩
        have := hj a b rfl rfl
        by_cases ha : a = ' '
        · by_cases hb : b = ' '
          · exact absurd ⟨ha, hb⟩ this
          · simp [hb]
        · simp [ha]
    | cons c x'' =>
      rw [noDS, Bool.and_eq_true] at hx
      rw [List.cons_append, List.cons_append, noDS, Bool.and_eq_true]
      rw [List.cons_append] at ih
      refine ⟨hx.1, ?_⟩
      exact ih hx.2 (fun p q hp hq => hj p q (by rw [List.getLast?_cons_cons]; exact hp) hq)

theorem singleWord_chars (w : Str) (hw : w ∈ singleWords) :
    pyLower w = w ∧ sanitize w = w ∧ w.map (fun c => if c = '=' then ' ' else c) = w ∧
      noDS ("--".data ++ w ++ " ".data) = true ∧ (∀ a ∈ w, a ≠ '-') ∧ w ≠ [] ∧
      (∀ a ∈ w, isPySpace a = false) := by
  fin_cases hw <;>
    refine ⟨by decide, by decide, by decide, by decide, by decide, by decide, by decide⟩

theorem specOfWords_cons (w : Str) (ws : List Str) :
    specOfWords (w :: ws) = ("--".data ++ w ++ " ".data) ++ specOfWords ws := by
  rw [specOfWords, List.map_cons, List.flatten_cons, specOfWords]

theorem pyLower_append (x y : Str) : pyLower (x ++ y) = pyLower x ++ pyLower y :=
  List.map_append _ _ _

theorem sanitize_append (x y : Str) : sanitize (x ++ y) = sanitize x ++ sanitize y :=
  List.filter_append _ _

theorem specOfWords_id (ws : List Str) (hall : ∀ w ∈ ws, w ∈ singleWords) :
    pyLower (specOfWords ws) = specOfWords ws ∧
      sanitize (specOfWords ws) = specOfWords ws ∧
      (specOfWords ws).map (fun c => if c = '=' then ' ' else c) = specOfWords ws ∧
      noDS (specOfWords ws) = true := by
  induction ws with
  | nil => exact ⟨rfl, rfl, rfl, rfl⟩
  | cons w ws ih =>
    obtain ⟨hl, hs, hm, hn, hd, hne, hns⟩ := singleWord_chars w (hall w (by simp))
    obtain ⟨ihl, ihs, ihm, ihn⟩ := ih (fun x hx => hall x (by simp [hx]))
    rw [specOfWords_cons]
    refine ⟨?_, ?_, ?_, ?_⟩
    · rw [pyLower_append, ihl]
      congr 1
      rw [pyLower, List.map_append, List.map_append, ← pyLower, ← pyLower, ← pyLower, hl]
      rfl
    · rw [sanitize_append, ihs]
      congr 1
      rw [sanitize, List.filter_append, List.filter_append, ← sanitize, ← sanitize, ← sanitize, hs]
      rfl
    · rw [List.map_append, ihm]
      congr 1
      rw [List.map_append, List.map_append, hm]
      rfl
    · refine noDS_append _ _ hn ihn ?_
      intro a b hla hhb
      have ha : a = ' ' := by
        have hcl : (("--".data ++ w ++ " ".data)).getLast? = some ' ' := by
          rw [List.getLast?_concat]
        have h2 : some ' ' = some a := by rw [← hcl, hla]
        exact (Option.some_inj.mp h2).symm
      cases ws with
      | nil => simp [specOfWords] at hhb
      | cons v vs =>
        rw [specOfWords_cons] at hhb
        have hb : b = '-' := by
          simp at hhb
          exact hhb.symm
        rintro ⟨-, hb'⟩
        rw [hb] at hb'
        cases hb'

/-- The composed text without its final trailing space. -/
def specCore : List Str → Str
  | [] => []
  | [w] => "--".data ++ w
  | w :: v :: rest => "--".data ++ w ++ " ".data ++ specCore (v :: rest)

theorem specOfWords_eq_core (ws : List Str) (h : ws ≠ []) :
    specOfWords ws = specCore ws ++ [' '] := by
  induction ws with
  | nil => exact absurd rfl h
  | cons w ws ih =>
    cases ws with
    | nil =>
      rw [specOfWords_cons, specCore]
      simp [specOfWords, List.append_assoc]
    | cons v rest =>
      rw [specOfWords_cons, specCore, ih (by simp)]
      simp [List.append_assoc]

theorem trimRight_concat_nonspace (l : Str) (c : Char) (hc : isPySpace c = false) :
    trimRight (l ++ [c]) = l ++ [c] := by
  rw [trimRight, List.reverse_append]
  simp [List.dropWhile_cons, hc]

theorem trimRight_concat_space (l : Str) (c : Char) (hc : isPySpace c = true) :
    trimRight (l ++ [c]) = trimRight l := by
  rw [trimRight, trimRight, List.reverse_append]
  simp [List.dropWhile_cons, hc]

theorem specCore_concat (ws : List Str) (h : ws ≠ []) (hall : ∀ w ∈ ws, w ∈ singleWords) :
    ∃ l c, specCore ws = l ++ [c] ∧ isPySpace c = false := by
  induction ws with
  | nil => exact absurd rfl h
  | cons w ws ih =>
    cases ws with
    | nil =>
      have hw : w ∈ singleWords := hall w (by simp)
      fin_cases hw
      · exact ⟨"--gfn".data, '2', by decide, by decide⟩
      · exact ⟨"--gfn".data, '1', by decide, by decide⟩
      · exact ⟨"--gfn".data, '0', by decide, by decide⟩
      · exact ⟨"--gfnf".data, 'f', by decide, by decide⟩
      · exact ⟨"--gfn2//gfnf".data, 'f', by decide, by decide⟩
      · exact ⟨"--nc".data, 'i', by decide, by decide⟩
      · exact ⟨"--quic".data, 'k', by decide, by decide⟩
      · exact ⟨"--squic".data, 'k', by decide, by decide⟩
      · exact ⟨"--mquic".data, 'k', by decide, by decide⟩
    | cons v rest =>
      obtain ⟨l, c, hl, hc⟩ := ih (by simp) (fun x hx => hall x (by simp [hx]))
      refine ⟨"--".data ++ w ++ " ".data ++ l, c, ?_, hc⟩
      rw [specCore, hl]
      simp [List.append_assoc]

theorem splitOnDD_single (x : Str) (hx : ∀ a ∈ x, a ≠ '-') : splitOnDD x = [x] := by
  have h := splitOnDD_append_nondash x [] hx
  have h0 : splitOnDD ([] : Str) = [[]] := rfl
  rw [List.append_nil, h0] at h
  simpa using h

theorem specCore_head (ws : List Str) (h : ws ≠ []) :
    ∃ r, specCore ws = '-' :: '-' :: r ∧ specCore ws = "--".data ++ r := by
  cases ws with
  | nil => exact absurd rfl h
  | cons w ws =>
    cases ws with
    | nil => exact ⟨w, rfl, rfl⟩
    | cons v rest =>
      refine ⟨w ++ " ".data ++ specCore (v :: rest), ?_, ?_⟩
      · rw [specCore]
        simp [List.append_assoc]
      · rw [specCore]
        simp [List.append_assoc]

theorem splitOnDD_specCore (ws : List Str) (h : ws ≠ [])
    (hall : ∀ w ∈ ws, w ∈ singleWords) :
    splitOnDD (specCore ws) = [] :: tokensT ws := by
  induction ws with
  | nil => exact absurd rfl h
  | cons w ws ih =>
    have hnd : ∀ a ∈ w, a ≠ '-' :=
      (singleWord_chars w (hall w (by simp))).2.2.2.2.1
    cases ws with
    | nil =>
      rw [specCore, tokensT]
      have hdd : "--".data ++ w = '-' :: '-' :: w := rfl
      rw [hdd, splitOnDD_dd, splitOnDD_single w hnd]
    | cons v rest =>
      rw [specCore, tokensT]
      have hdd : "--".data ++ w ++ " ".data ++ specCore (v :: rest)
          = '-' :: '-' :: ((w ++ " ".data) ++ specCore (v :: rest)) := by
        simp [List.append_assoc]
      rw [hdd, splitOnDD_dd,
        splitOnDD_append_nondash (w ++ " ".data) _
          (by
            intro a ha
            rcases List.mem_append.mp ha with ha | ha
            · exact hnd a ha
            · simp at ha
              rw [ha]
              decide),
        ih (by simp) (fun x hx => hall x (by simp [hx]))]
      simp

theorem emitAcc_method (st : SpecState) : (emitAcc st).method = st.method := by
  rw [emitAcc]
  split_ifs <;> rfl

theorem finalizeSpecs_method (t : CalcType) (st : SpecState) :
    (finalizeSpecs t st).method = st.method := by
  rw [finalizeSpecs]
  split_ifs <;> simp [emitAcc_method]

theorem clean_eq (seed : Str) (ws : List Str) (h : ws ≠ [])
    (hall : ∀ w ∈ ws, w ∈ singleWords)
    (hsan : sanitize seed = seed)
    (hmap : seed.map (fun c => if c = '=' then ' ' else c) = seed)
    (hnds : noDS seed = true) :
    pyReplace "  ".data " ".data (pyReplace "=".data " ".data
      (sanitize (seed ++ pyLower (specOfWords ws)))) = seed ++ specOfWords ws := by
  obtain ⟨hlo, hsa, hmp, hnd⟩ := specOfWords_id ws hall
  rw [hlo, sanitize_append, hsan, hsa, pyReplace_single_char, List.map_append, hmap, hmp]
  apply pyReplace_of_no_occurrence
  apply hasSub_dd_false_of_noDS
  refine noDS_append seed _ hnds hnd ?_
  intro a b hla hhb
  obtain ⟨w, ws', rfl⟩ : ∃ w ws', ws = w :: ws' := by
    cases ws with
    | nil => exact absurd rfl h
    | cons w ws' => exact ⟨w, ws', rfl⟩
  rw [specOfWords_cons] at hhb
  have hb : b = '-' := by
    simp at hhb
    exact hhb.symm
  rintro ⟨-, hb'⟩
  rw [hb] at hb'
  cases hb'

theorem handleSpecifications_words (t : CalcType) (ht : t ≠ CalcType.OPTFREQ)
    (ws : List Str) (hall : ∀ w ∈ ws, w ∈ singleWords)
    (hconf : "gfn2//gfnff".data ∈ ws → t ∈ confKinds) :
    ∃ st : SpecState,
      handleSpecifications t (handleCommand t).2.1 (specOfWords ws)
        (handleCommand t).2.2 = .ok st ∧
      st.method = lastMethod ws "gfn2-xtb".data := by
  cases ws with
  | nil =>
    cases t
    · exact ⟨_, rfl, by decide⟩
    · exact ⟨_, rfl, by decide⟩
    · exact ⟨_, rfl, by decide⟩
    · exact ⟨_, rfl, by decide⟩
    · exact ⟨_, rfl, by decide⟩
    · exact absurd rfl ht
    · exact ⟨_, rfl, by decide⟩
    · exact ⟨_, rfl, by decide⟩
  | cons w ws' =>
    have hne : (w :: ws') ≠ [] := by simp
    have hcore := specOfWords_eq_core (w :: ws') hne
    obtain ⟨l, c, hl, hc⟩ := specCore_concat (w :: ws') hne hall
    obtain ⟨r, hr1, hr2⟩ := specCore_head (w :: ws') hne
    have hsplitC := splitOnDD_specCore (w :: ws') hne hall
    obtain ⟨st', hst', hm, _, _, _⟩ :=
      processTokens_tokensT t (w :: ws') hall hconf (initSpecState (handleCommand t).2.2)
    by_cases hT : t = CalcType.OPT
    · subst hT
      rw [handleSpecifications_eq]
      have hs1 : (handleCommand CalcType.OPT).2.1 = "--opt tight ".data := rfl
      rw [hs1]
      have hclean := clean_eq "--opt tight ".data (w :: ws') hne hall
        (by decide) (by decide) (by decide)
      rw [hclean]
      have hstrip : pyStrip ("--opt tight ".data ++ specOfWords (w :: ws'))
          = "--opt tight ".data ++ specCore (w :: ws') := by
        rw [hcore, pyStrip, ← List.append_assoc,
          trimRight_concat_space _ _ (by decide), hl, ← List.append_assoc,
          trimRight_concat_nonspace _ _ hc, List.append_assoc, ← hl]
        have hshape : "--opt tight ".data ++ specCore (w :: ws')
            = '-' :: ('-' :: ("opt tight ".data ++ specCore (w :: ws'))) := rfl
        rw [hshape, List.dropWhile_cons_of_neg (by decide)]
      rw [hstrip]
      have hsplit2 : splitOnDD ("--opt tight ".data ++ specCore (w :: ws'))
          = [] :: ("opt tight ".data) :: tokensT (w :: ws') := by
        have hshape : "--opt tight ".data ++ specCore (w :: ws')
            = '-' :: '-' :: ("opt tight ".data ++ specCore (w :: ws')) := rfl
        rw [hshape, splitOnDD_dd,
          splitOnDD_append_nondash "opt tight ".data _ (by decide), hsplitC]
        simp
      rw [hsplit2, processTokens_cons_skip _ _ _ _ (by decide),
        processTokens_cons_ok _ _ _ _ (initSpecState (handleCommand CalcType.OPT).2.2)
          (by decide) (by rfl),
        hst']
      exact ⟨finalizeSpecs CalcType.OPT st', rfl, by rw [finalizeSpecs_method, hm]; rfl⟩
    · have hseed : (handleCommand t).2.1 = [] := by
        cases t
        · exact absurd rfl hT
        · rfl
        · rfl
        · rfl
        · rfl
        · exact absurd rfl ht
        · rfl
        · rfl
      rw [handleSpecifications_eq, hseed]
      have hclean := clean_eq [] (w :: ws') hne hall rfl rfl rfl
      rw [hclean, List.nil_append]
      have hstrip : pyStrip (specOfWords (w :: ws')) = specCore (w :: ws') := by
        rw [hcore, pyStrip, trimRight_concat_space _ _ (by decide), hl,
          trimRight_concat_nonspace _ _ hc, ← hl, hr1,
          List.dropWhile_cons_of_neg (by decide), ← hr1]
      rw [hstrip, hsplitC, processTokens_cons_skip _ _ _ _ (by decide), hst']
      exact ⟨finalizeSpecs t st', rfl, by rw [finalizeSpecs_method, hm]; rfl⟩

theorem lastMethod_eq_getLast (ws : List Str) (m0 : Str) :
    lastMethod ws m0 =
      ((ws.filter (fun w => decide (w ∈ methodWords))).getLast?).elim m0 normalizeMethod := by
  induction ws generalizing m0 with
  | nil => rfl
  | cons w ws ih =>
    rw [lastMethod, List.foldl_cons, ← lastMethod, ih]
    by_cases hw : w ∈ methodWords
    · rw [if_pos hw, List.filter_cons_of_pos (by simpa using hw)]
      cases hf : ws.filter (fun w => decide (w ∈ methodWords)) with
      | nil => simp
      | cons v vs =>
        rw [List.getLast?_cons_cons]
        obtain ⟨x, hx⟩ : ∃ x, (v :: vs).getLast? = some x :=
          ⟨(v :: vs).getLast (by simp), List.getLast?_eq_getLast _ _⟩
        rw [hx]
        rfl
    · rw [if_neg hw, List.filter_cons_of_neg (by simpa using hw)]

theorem natStr_len_one (m : ℕ) (h : m < 10) : (natStr m).length = 1 := by
  interval_cases m <;> rfl

theorem natStr_len_two (m : ℕ) (h1 : 10 ≤ m) (h2 : m < 100) : (natStr m).length = 2 := by
  interval_cases m <;> rfl

/-- `f"{x:.2f}"` renders an optional sign, the integer digits, a point, and
exactly two fractional digits. -/
theorem format2f_shape (x : PyFloat) :
    ∃ ip frac, format2f x = (if x.neg then ['-'] else []) ++ ip ++ ['.'] ++ frac ∧
      frac.length = 2 := by
  rw [format2f]
  set n : ℕ :=
    if x.exp + 2 ≥ 0 then x.mant * 10 ^ (x.exp + 2).toNat
    else
      let d := 10 ^ (-(x.exp + 2)).toNat
      let q := x.mant / d
      let r := x.mant % d
      if 2 * r < d then q else if d < 2 * r then q + 1 else if q % 2 = 0 then q else q + 1
  by_cases hlt : n % 100 < 10
  · refine ⟨natStr (n / 100), '0' :: natStr (n % 100), ?_, ?_⟩
    · rw [if_pos hlt]
      simp [List.append_assoc]
    · simp [natStr_len_one (n % 100) hlt]
  · refine ⟨natStr (n / 100), natStr (n % 100), ?_, ?_⟩
    · rw [if_neg hlt]
      simp [List.append_assoc]
    · exact natStr_len_two (n % 100) (by omega) (Nat.mod_lt _ (by norm_num))

theorem startsWith_self_append (p r : Str) : startsWith (p ++ r) p = true := by
  induction p with
  | nil =>
    rw [List.nil_append]
    cases r with
    | nil => rfl
    | cons c t => rfl
  | cons c p' ih =>
    rw [List.cons_append, startsWith]
    simp [ih]

theorem not_split_of_hasSub_false (l pat : Str) (h : hasSub l pat = false) :
    ∀ pre post, l ≠ pre ++ pat ++ post := by
  induction l with
  | nil =>
    intro pre post hcon
    rw [hasSub] at h
    cases pre with
    | nil =>
      cases pat with
      | nil => simp [startsWith] at h
      | cons a t => simp at hcon
    | cons a t => simp at hcon
  | cons c t ih =>
    intro pre post hcon
    rw [hasSub_cons, Bool.or_eq_false_iff] at h
    cases pre with
    | nil =>
      rw [List.nil_append] at hcon
      have : startsWith (c :: t) pat = true := by
        rw [hcon]
        exact startsWith_self_append pat post
      rw [this] at h
      exact absurd h.1 (by simp)
    | cons a pre' =>
      rw [List.cons_append, List.cons_append] at hcon
      have ht : t = pre' ++ pat ++ post := by
        injection hcon with h1 h2
      exact ih h.2 pre' post ht

theorem handleParameters_eq (lk : Str → Str → Option Str) (p : Parameters)
    (charge mult : ℤ) (args : Str) :
    handleParameters lk p charge mult args =
      match (if p.solvent ≠ [] then
          match lk p.solvent p.software with
          | none => Except.error (.invalidParameter "Invalid solvent".data)
          | some kw =>
            if p.solvation_model = "gbsa".data then .ok (args ++ "-g ".data ++ kw ++ [' '])
            else if p.solvation_model = "alpb".data then
              .ok (args ++ "--alpb ".data ++ kw ++ [' '])
            else .error (.invalidParameter
              ("Invalid solvation method for xtb: ".data ++ p.solvation_model))
        else .ok args : Except PyError Str) with
      | .error e => .error e
      | .ok a1 =>
        .ok (if mult ≠ 1 then
          (if charge ≠ 0 then a1 ++ "--chrg ".data ++ intStr charge ++ [' '] else a1)
            ++ "--uhf ".data ++ intStr mult ++ [' ']
        else
          (if charge ≠ 0 then a1 ++ "--chrg ".data ++ intStr charge ++ [' '] else a1)) := rfl

theorem chargeUhf_exists (a1 : Str) (charge mult : ℤ) :
    ∃ rest, (if mult ≠ 1 then
        (if charge ≠ 0 then a1 ++ "--chrg ".data ++ intStr charge ++ [' '] else a1)
          ++ "--uhf ".data ++ intStr mult ++ [' ']
      else
        (if charge ≠ 0 then a1 ++ "--chrg ".data ++ intStr charge ++ [' '] else a1))
      = a1 ++ rest := by
  by_cases hch : charge ≠ 0 <;> by_cases hm : mult ≠ 1
  · exact ⟨"--chrg ".data ++ intStr charge ++ [' '] ++ ("--uhf ".data ++ intStr mult ++ [' ']),
      by rw [if_pos hm, if_pos hch]; simp [List.append_assoc]⟩
  · exact ⟨"--chrg ".data ++ intStr charge ++ [' '],
      by rw [if_neg hm, if_pos hch]; simp [List.append_assoc]⟩
  · exact ⟨"--uhf ".data ++ intStr mult ++ [' '],
      by rw [if_pos hm, if_neg hch]; simp [List.append_assoc]⟩
  · exact ⟨[], by rw [if_neg hm, if_neg hch]; simp⟩

/-! ## Test fixtures -/

/-- A concrete solvent lookup: `water ↦ h2o`, everything else unknown. -/
def lk0 : Str → Str → Option Str :=
  fun s _ => if s = "water".data then some "h2o".data else none

/-- A minimal calculation request of the given kind and user specification. -/
def mkCalc (t : CalcType) (spec : Str) : Calc :=
  { type := t, charge := 0, multiplicity := 1,
    parameters := { solvent := [], solvation_model := [], software := "xtb".data,
                    specifications := spec },
    constraints := [], xyz := "a\nb\nc".data, file := "tmp/in.xyz".data }

def pAlpb : Parameters :=
  { solvent := "water".data, solvation_model := "alpb".data, software := "xtb".data,
    specifications := [] }

def calcC5 : Calc :=
  { mkCalc CalcType.CONSTR_CONF_SEARCH [] with
    xyz := "1\n2\n3\n4\n5\n6\n7".data,
    constraints := [{ xtb := "dist\n".data, ids := [1, 2], scan := false,
                      start_d := [], end_d := [], num_steps := [] }] }

def outC5 : XtbOutput :=
  { program := "crest".data,
    cmd_arguments := "-cinp input -rthr 0.6 -ewin 6 ".data,
    option_file :=
      "$constrain\nforce constant=1.0\nreference=in.xyz\ndist\natoms: 1-2\n$metadyn\natoms: 3-6\n".data,
    command := "crest in.xyz -cinp input -rthr 0.6 -ewin 6 ".data }

def outC10 : XtbOutput :=
  { program := "xtb".data, cmd_arguments := "--opt tight --input input ".data,
    option_file := [], command := "xtb in.xyz --opt tight --input input ".data }

theorem handleConstraintsCrest_metadyn (xyz file : Str) (fc : PyFloat)
    (cs : List Constraint) (f0 : Str) :
    ∃ pre, handleConstraintsCrest xyz file fc cs f0 =
      pre ++ "$metadyn\n".data ++ "atoms: ".data ++
        compressIndices (mtdAtoms xyz cs) ++ ['\n'] :=
  ⟨_, rfl⟩

/-! ## The claims -/

/-- C1 (amended): for every optimization+frequency request, construction
always raises the typed invalid-parameter error, regardless of the user's
specification string, because the seeded `--ohess tight ` directive is
rejected before any user directive is processed; the message is
`Unknown specification: ohess` exactly when the seeded token carries no
extra user words — in particular for an empty user specification — and an
`Invalid specification: [...]` rendering otherwise. -/
theorem xtb_C1_optfreq_always_invalid :
    (∀ (lk : Str → Str → Option Str) (c : Calc), c.type = CalcType.OPTFREQ →
      ∃ msg, runXtb lk c = .error (.invalidParameter msg)) ∧
    runXtb lk0 (mkCalc CalcType.OPTFREQ []) =
      .error (.invalidParameter "Unknown specification: ohess".data) := by
  constructor
  · intro lk c hc
    obtain ⟨msg, hmsg⟩ := ohess_always_errors c.type c.parameters.specifications
      (handleCommand c.type).2.2
    refine ⟨msg, runXtb_error_of_spec_error lk c _ ?_⟩
    have hseed : (handleCommand c.type).2.1 = "--ohess tight ".data := by rw [hc]; rfl
    rw [hseed]
    exact hmsg
  · rfl

/-- C1 counterexample: with user specification `x`, construction still fails
with the invalid-parameter error, but the message is the three-word
`Invalid specification: [...]` rendering, not `Unknown specification: ohess`. -/
theorem xtb_C1_counterexample :
    runXtb lk0 (mkCalc CalcType.OPTFREQ "x".data) =
      .error (.invalidParameter ("Invalid specification: ".data ++
        pyListRepr ["ohess".data, "tight".data, "x".data])) ∧
    "Invalid specification: ".data ++ pyListRepr ["ohess".data, "tight".data, "x".data] ≠
      "Unknown specification: ohess".data :=
  ⟨rfl, by decide⟩

/-- C1 witness: a concrete optimization+frequency request raising the
invalid-parameter error. -/
theorem xtb_C1_witness :
    ∃ msg, runXtb lk0 (mkCalc CalcType.OPTFREQ "--gfn1 --nci".data) =
      .error (.invalidParameter msg) :=
  xtb_C1_optfreq_always_invalid.1 lk0 (mkCalc CalcType.OPTFREQ "--gfn1 --nci".data) rfl

/-- C2 (code-bug evidence): a conformer-search request with charge 1 keeps a
double-dash `--chrg` flag in the final crest command — the `--` → `-`
rewrite of `handle_specifications` runs before `handle_parameters` appends
the charge flag, contradicting the claim that every double-dash prefix is
rewritten for conformer-search kinds. -/
theorem xtb_C2_conf_search_double_dash_charge :
    runXtb lk0 { mkCalc CalcType.CONF_SEARCH [] with charge := 1 } =
      .ok { program := "crest".data,
            cmd_arguments := "-rthr 0.6 -ewin 6 --chrg 1 ".data,
            option_file := [],
            command := "crest in.xyz -rthr 0.6 -ewin 6 --chrg 1 ".data } ∧
    "crest in.xyz -rthr 0.6 -ewin 6 --chrg 1 ".data =
      "crest in.xyz -rthr 0.6 -ewin 6 ".data ++ "--chrg".data ++ " 1 ".data :=
  ⟨rfl, rfl⟩

/-- C3 (code-bug evidence): the `acc` directive converts its second word with
a bare `float(...)`, so `--acc abc` raises the interpreter's `ValueError`,
not the typed invalid-parameter error used everywhere else. -/
theorem xtb_C3_acc_value_error :
    runXtb lk0 (mkCalc CalcType.SP "--acc abc".data) =
      .error (.valueError ("could not convert string to float: ".data ++
        [quoteChar] ++ "abc".data ++ [quoteChar])) := rfl

/-- C4 counterexample: for the optimization+frequency kind, a specification
text composed only of the recognized single-word directive `gfn1` still
fails to parse (the seeded `--ohess tight ` directive is rejected first). -/
theorem xtb_C4_counterexample :
    (∀ w ∈ ["gfn1".data], w ∈ singleWords) ∧
    runXtb lk0 (mkCalc CalcType.OPTFREQ (specOfWords ["gfn1".data])) =
      .error (.invalidParameter "Unknown specification: ohess".data) :=
  ⟨by decide, rfl⟩

/-- C4 (amended): for every calculation kind except optimization+frequency,
and every specification text composed only of recognized single-word
directives (`gfn2//gfnff` only where applicable), parsing never fails and
the finalized method is the normalization of the last method directive
(the default `gfn2-xtb` when there is none). -/
theorem xtb_C4_single_word_directives :
    ∀ (t : CalcType), t ≠ CalcType.OPTFREQ →
      ∀ ws : List Str, (∀ w ∈ ws, w ∈ singleWords) →
        ("gfn2//gfnff".data ∈ ws → t ∈ confKinds) →
        ∃ st : SpecState,
          handleSpecifications t (handleCommand t).2.1 (specOfWords ws)
            (handleCommand t).2.2 = .ok st ∧
          st.method = ((ws.filter (fun w => decide (w ∈ methodWords))).getLast?).elim
            "gfn2-xtb".data normalizeMethod := by
  intro t ht ws hall hconf
  obtain ⟨st, h1, h2⟩ := handleSpecifications_words t ht ws hall hconf
  exact ⟨st, h1, by rw [h2, lastMethod_eq_getLast]⟩

/-- C4 witness: a concrete single-point specification `--gfn1 --nci --gfnff `
parses and finalizes the method from the last method directive `gfnff`. -/
theorem xtb_C4_witness :
    ∃ st : SpecState,
      handleSpecifications CalcType.SP (handleCommand CalcType.SP).2.1
        (specOfWords ["gfn1".data, "nci".data, "gfnff".data])
        (handleCommand CalcType.SP).2.2 = .ok st ∧
      st.method = ((["gfn1".data, "nci".data, "gfnff".data].filter
        (fun w => decide (w ∈ methodWords))).getLast?).elim "gfn2-xtb".data normalizeMethod :=
  xtb_C4_single_word_directives CalcType.SP (by decide)
    ["gfn1".data, "nci".data, "gfnff".data] (by decide) (by decide)

/-- C5: for every constrained conformer search whose constraints involve
exactly the atom indices 1 and 2, the option file's `$metadyn` section lists
exactly the compressed complement 3 .. N-1, where N is the number of
newline-delimited lines of the geometry block. -/
theorem xtb_C5_metadyn_complement :
    ∀ (lk : Str → Str → Option Str) (c : Calc) (out : XtbOutput),
      c.type = CalcType.CONSTR_CONF_SEARCH →
      (∀ a ∈ flatIds c.constraints, a = 1 ∨ a = 2) →
      (1 : ℕ) ∈ flatIds c.constraints → (2 : ℕ) ∈ flatIds c.constraints →
      runXtb lk c = .ok out →
      ∃ pre, out.option_file = pre ++ "$metadyn\n".data ++ "atoms: ".data ++
        compressIndices (List.range' 3 ((splitNl c.xyz).length - 1 - 2)) ++ ['\n'] := by
  intro lk c out hc hsub h1 h2 hrun
  obtain ⟨st, args, hs, hp, hout⟩ := runXtb_ok_shape lk c out hrun
  obtain ⟨pre, hpre⟩ :=
    handleConstraintsCrest_metadyn c.xyz c.file st.force_constant c.constraints []
  rw [mtdAtoms_eq_filter, filter_not_mem_onetwo _ _ hsub h1 h2] at hpre
  refine ⟨pre, ?_⟩
  rw [hout]
  dsimp only
  rw [if_pos hc, hpre]

/-- C5 witness: a 7-line geometry with constrained atoms 1 and 2 yields the
`$metadyn` atoms line `3-6`. -/
theorem xtb_C5_witness :
    ∃ pre, outC5.option_file = pre ++ "$metadyn\n".data ++ "atoms: ".data ++
      compressIndices (List.range' 3 ((splitNl calcC5.xyz).length - 1 - 2)) ++ ['\n'] :=
  xtb_C5_metadyn_complement lk0 calcC5 outC5 rfl (by decide) (by decide) (by decide) rfl

/-- C6: the index range compressor renders the comma-joined maximal
consecutive runs of the deduplicated ascending-sorted input, depends only on
the underlying set, and produces `1-3,5,9-10`, the empty string, and `7` on
the cited inputs. -/
theorem xtb_C6_compress_indices :
    (∀ arr : List ℕ, compressIndices arr =
      List.intercalate [','] ((runsSpec (sortedDedup arr)).map renderRun)) ∧
    (∀ l₁ l₂ : List ℕ, l₁.toFinset = l₂.toFinset →
      compressIndices l₁ = compressIndices l₂) ∧
    compressIndices [5, 1, 2, 3, 9, 10] = "1-3,5,9-10".data ∧
    compressIndices [] = [] ∧
    compressIndices [7] = "7".data :=
  ⟨compressIndices_eq_runsSpec, compressIndices_toFinset_congr, by decide, by decide, by decide⟩

/-- C6 witness: two insertion orders of the same set compress identically. -/
theorem xtb_C6_witness :
    compressIndices [5, 1, 2, 3, 9, 10] = compressIndices [10, 9, 5, 3, 2, 1, 1] :=
  xtb_C6_compress_indices.2.1 [5, 1, 2, 3, 9, 10] [10, 9, 5, 3, 2, 1, 1] (by decide)

/-- C7: the constrained atoms line is de-duplicated and order-independent
(it depends only on the set of constrained ids); the metadynamics complement
is always the pure filter of `1 .. N-1`, computed without failure, and a
constrained id outside `1 .. N-1` never changes the complement. -/
theorem xtb_C7_constraint_atoms :
    (∀ cs₁ cs₂ : List Constraint, (flatIds cs₁).toFinset = (flatIds cs₂).toFinset →
      compressIndices (flatIds cs₁) = compressIndices (flatIds cs₂)) ∧
    (∀ (xyz : Str) (cs : List Constraint),
      mtdAtoms xyz cs = (List.range' 1 ((splitNl xyz).length - 1)).filter
        (fun x => decide (¬ x ∈ flatIds cs))) ∧
    (∀ (xyz : Str) (cs : List Constraint) (cst : Constraint),
      (∀ a ∈ cst.ids, ¬ a ∈ List.range' 1 ((splitNl xyz).length - 1)) →
      mtdAtoms xyz (cst :: cs) = mtdAtoms xyz cs) := by
  refine ⟨fun cs₁ cs₂ h => compressIndices_toFinset_congr _ _ h, mtdAtoms_eq_filter, ?_⟩
  intro xyz cs cst hout
  rw [mtdAtoms_eq_filter, mtdAtoms_eq_filter]
  apply List.filter_congr
  intro a ha
  have hnc : ¬ a ∈ cst.ids := fun hin => hout a hin ha
  have hflat : flatIds (cst :: cs) = cst.ids ++ flatIds cs := by
    rw [flatIds, List.map_cons, List.flatten_cons, flatIds]
  rw [hflat]
  simp [decide_eq_decide, List.mem_append, hnc]

/-- C7 witness: duplicated, reordered ids compress identically, and an
out-of-range id 99 leaves the complement unchanged. -/
theorem xtb_C7_witness :
    compressIndices (flatIds [{ xtb := [], ids := [2, 1, 2], scan := false,
                                start_d := [], end_d := [], num_steps := [] }]) =
      compressIndices (flatIds [{ xtb := [], ids := [1, 2], scan := false,
                                  start_d := [], end_d := [], num_steps := [] }]) ∧
    mtdAtoms "a\nb\nc\nd\ne".data
        [{ xtb := [], ids := [99], scan := false, start_d := [], end_d := [], num_steps := [] }]
      = mtdAtoms "a\nb\nc\nd\ne".data [] :=
  ⟨xtb_C7_constraint_atoms.1 _ _ (by decide),
   xtb_C7_constraint_atoms.2.2 _ []
     { xtb := [], ids := [99], scan := false, start_d := [], end_d := [], num_steps := [] }
     (by decide)⟩

/-- C8: with a non-empty solvent, an unknown solvent name fails with
`Invalid solvent`; a known solvent yields `-g <kw>` for `gbsa`, `--alpb <kw>`
for `alpb`, and `Invalid solvation method for xtb: <model>` otherwise; with
an empty solvent no solvent flag is appended and no solvent failure occurs —
only the charge and multiplicity flags. -/
theorem xtb_C8_parameters :
    ∀ (lk : Str → Str → Option Str) (p : Parameters) (charge mult : ℤ) (args : Str),
      (p.solvent ≠ [] → lk p.solvent p.software = none →
        handleParameters lk p charge mult args =
          .error (.invalidParameter "Invalid solvent".data)) ∧
      (∀ kw, p.solvent ≠ [] → lk p.solvent p.software = some kw →
        (p.solvation_model = "gbsa".data →
          ∃ rest, handleParameters lk p charge mult args =
            .ok ((args ++ "-g ".data ++ kw ++ [' ']) ++ rest)) ∧
        (p.solvation_model = "alpb".data →
          ∃ rest, handleParameters lk p charge mult args =
            .ok ((args ++ "--alpb ".data ++ kw ++ [' ']) ++ rest)) ∧
        (p.solvation_model ≠ "gbsa".data → p.solvation_model ≠ "alpb".data →
          handleParameters lk p charge mult args =
            .error (.invalidParameter
              ("Invalid solvation method for xtb: ".data ++ p.solvation_model)))) ∧
      (p.solvent = [] →
        handleParameters lk p charge mult args =
          .ok (if mult ≠ 1 then
            (if charge ≠ 0 then args ++ "--chrg ".data ++ intStr charge ++ [' '] else args)
              ++ "--uhf ".data ++ intStr mult ++ [' ']
          else
            (if charge ≠ 0 then args ++ "--chrg ".data ++ intStr charge ++ [' '] else args))) := by
  intro lk p charge mult args
  refine ⟨?_, ?_, ?_⟩
  · intro hs hnone
    rw [handleParameters_eq, if_pos hs, hnone]
  · intro kw hs hsome
    refine ⟨?_, ?_, ?_⟩
    · intro hmod
      obtain ⟨rest, hrest⟩ := chargeUhf_exists (args ++ "-g ".data ++ kw ++ [' ']) charge mult
      refine ⟨rest, ?_⟩
      rw [handleParameters_eq, if_pos hs, hsome]
      dsimp only
      rw [if_pos hmod]
      dsimp only
      rw [hrest]
    · intro hmod
      have hne : p.solvation_model ≠ "gbsa".data := by
        rw [hmod]
        decide
      obtain ⟨rest, hrest⟩ := chargeUhf_exists (args ++ "--alpb ".data ++ kw ++ [' ']) charge mult
      refine ⟨rest, ?_⟩
      rw [handleParameters_eq, if_pos hs, hsome]
      dsimp only
      rw [if_neg hne, if_pos hmod]
      dsimp only
      rw [hrest]
    · intro hg ha
      rw [handleParameters_eq, if_pos hs, hsome]
      dsimp only
      rw [if_neg hg, if_neg ha]
  · intro hs
    have hs' : ¬ (p.solvent ≠ []) := by simpa using hs
    rw [handleParameters_eq, if_neg hs']

/-- C8 witness: model `alpb` with solvent `water` yields `--alpb h2o`. -/
theorem xtb_C8_witness :
    ∃ rest, handleParameters lk0 pAlpb 0 1 [] =
      .ok (([] ++ "--alpb ".data ++ "h2o".data ++ [' ']) ++ rest) :=
  ((xtb_C8_parameters lk0 pAlpb 0 1 []).2.1 "h2o".data (by decide) (by decide)).2.1 rfl

/-- C9 counterexample: `--acc -1` parses to the float −1, which collides with
the unset sentinel, so no `--acc` fragment is emitted at all. -/
theorem xtb_C9_counterexample :
    runXtb lk0 (mkCalc CalcType.SP "--acc -1".data) =
      .ok { program := "xtb".data, cmd_arguments := [], option_file := [],
            command := "xtb in.xyz ".data } ∧
    ∀ pre post, "xtb in.xyz ".data ≠ pre ++ "--acc".data ++ post :=
  ⟨rfl, not_split_of_hasSub_false _ _ (by decide)⟩

/-- C9 (amended): an `acc` directive with a float-parseable second word
records exactly that value; whenever the recorded value differs from the −1
sentinel the emitted fragment is `--acc ` followed by the value formatted
with exactly two decimal places (`--acc 3.50` for `acc 3.5`); a value equal
to −1 emits nothing. -/
theorem xtb_C9_acc_formatting :
    (∀ (t : CalcType) (st : SpecState) (w : Str) (f : PyFloat),
      parseFloat w = some f →
      procSpec t st ["acc".data, w] = .ok { st with accuracy := f }) ∧
    (∀ st : SpecState, ¬ st.accuracy.eqInt (-1) = true →
      (emitAcc st).cmd_arguments =
        st.cmd_arguments ++ "--acc ".data ++ format2f st.accuracy ++ [' ']) ∧
    (∀ st : SpecState, st.accuracy.eqInt (-1) = true → emitAcc st = st) ∧
    (∀ x : PyFloat, ∃ ip frac,
      format2f x = (if x.neg then ['-'] else []) ++ ip ++ ['.'] ++ frac ∧ frac.length = 2) ∧
    runXtb lk0 (mkCalc CalcType.SP "--acc 3.5".data) =
      .ok { program := "xtb".data, cmd_arguments := "--acc 3.50 ".data, option_file := [],
            command := "xtb in.xyz --acc 3.50 ".data } := by
  refine ⟨?_, ?_, ?_, format2f_shape, rfl⟩
  · intro t st w f hf
    have hred : procSpec t st ["acc".data, w] =
        match parseFloat w with
        | some f => .ok { st with accuracy := f }
        | none => .error (.valueError ("could not convert string to float: ".data ++
            [quoteChar] ++ w ++ [quoteChar])) := rfl
    rw [hred, hf]
  · intro st h
    rw [emitAcc, if_pos h]
  · intro st h
    rw [emitAcc, if_neg (by simp [h])]

/-- C9 witness: `acc 3.5` records exactly 3.5. -/
theorem xtb_C9_witness :
    procSpec CalcType.SP (initSpecState []) ["acc".data, "3.5".data] =
      .ok { initSpecState [] with accuracy := ⟨false, 35, -1⟩ } :=
  xtb_C9_acc_formatting.1 CalcType.SP (initSpecState []) "3.5".data ⟨false, 35, -1⟩ (by decide)

/-- C10: a constrained optimization with no constraints produces an entirely
empty option file — not even a `$constrain` header. -/
theorem xtb_C10_empty_scan :
    ∀ (lk : Str → Str → Option Str) (c : Calc) (out : XtbOutput),
      c.type = CalcType.CONSTR_OPT → c.constraints = [] →
      runXtb lk c = .ok out → out.option_file = [] := by
  intro lk c out hc hcs hrun
  obtain ⟨st, args, hs, hp, hout⟩ := runXtb_ok_shape lk c out hrun
  rw [hout]
  dsimp only
  rw [if_neg (by rw [hc]; decide), if_pos hc, hcs]
  rfl

/-- C10 witness: a concrete constrained optimization with no constraints. -/
theorem xtb_C10_witness : outC10.option_file = [] :=
  xtb_C10_empty_scan lk0 (mkCalc CalcType.CONSTR_OPT []) outC10 rfl rfl rfl
